import Mathlib

/-!
Shallow embedding of the tg_post_service scheduler (src/project_root/scheduler.py
and src/project_root/grammar_fix.py) and proofs about the frozen claims.

Conventions:
* timestamps are integers (seconds, naive UTC) — `Option ℤ` where the source
  column is nullable;
* calendar-day strings such as `used_today_date` (`now.strftime("%Y-%m-%d")`)
  are modelled as integers (one integer per calendar day);
* Python `float` weights are modelled as `ℚ`;
* Python strings are modelled as `List Char` (a list of Unicode code points)
  in the text-processing claims.
-/

namespace TgPostService

/-! ### Discussion state (scheduler.py, `DiscussionState` + `_reset_discussion_state`) -/

/-- Mirror of the `DiscussionState` row: the fields touched or framed by
`_reset_discussion_state` (scheduler.py:1734-1742). -/
structure DiscussionState where
  question_message_id : Option ℤ
  question_created_at : Option ℤ
  expires_at : Option ℤ
  replies_planned : ℤ
  replies_sent : ℤ
  last_bot_reply_at : Option ℤ
  last_reply_parent_id : Option ℤ
  last_bot_reply_message_id : Option ℤ
  last_source_post_id : Option ℤ
  last_source_post_at : Option ℤ
  recent_topics_json : List Char
  next_due_at : Option ℤ
  deriving Repr, DecidableEq

/-- `_reset_discussion_state` (scheduler.py:1734-1742): clears the open-question
fields and leaves every other column of the row untouched. -/
def resetDiscussionState (s : DiscussionState) : DiscussionState :=
  { s with
    question_message_id := none
    question_created_at := none
    expires_at := none
    replies_planned := 0
    replies_sent := 0
    last_bot_reply_at := none
    last_reply_parent_id := none
    last_bot_reply_message_id := none }

/-! ### Flood-wait handling (`_handle_flood_wait_block`, scheduler.py:3641-3656) -/

/-- The flood-wait fields of `AccountRuntime` used by `_handle_flood_wait_block`. -/
structure FloodWaitState where
  flood_wait_until : Option ℤ
  flood_wait_notified_until : Option ℤ
  deriving Repr, DecidableEq

/-- `until <= bound` for an optional bound, `False` when the bound is unset
(mirrors `account.flood_wait_until and until <= account.flood_wait_until`). -/
def optReached (bound : Option ℤ) (until_ : ℤ) : Bool :=
  match bound with
  | some b => decide (until_ ≤ b)
  | none => false

/-- `_handle_flood_wait_block` (scheduler.py:3641-3656): `until = now + seconds`;
if an active `flood_wait_until` already reaches `until`, nothing changes;
otherwise `flood_wait_until := until`, and the owner is notified unless a
notification for `until` (or later) was already sent.  Returns the updated
state and `some until` when a notification is emitted. -/
def handleFloodWaitBlock (s : FloodWaitState) (now seconds : ℤ) :
    FloodWaitState × Option ℤ :=
  if optReached s.flood_wait_until (now + seconds) then (s, none)
  else if optReached s.flood_wait_notified_until (now + seconds) then
    ({ s with flood_wait_until := some (now + seconds) }, none)
  else
    ({ s with flood_wait_until := some (now + seconds),
              flood_wait_notified_until := some (now + seconds) }, some (now + seconds))

/-- Fold `handleFloodWaitBlock` over a list of `(now, seconds)` events,
collecting the emitted notification timestamps in order. -/
def floodWaitTrace (s : FloodWaitState) : List (ℤ × ℤ) → FloodWaitState × List ℤ
  | [] => (s, [])
  | ev :: rest =>
      let step := handleFloodWaitBlock s ev.1 ev.2
      let next := floodWaitTrace step.1 rest
      (next.1, step.2.toList ++ next.2)

/-! ### Character classes and Python string helpers -/

/-- Python whitespace for `str.strip` / `\s` (ASCII part; the repository's
texts use plain spaces and newlines). -/
def isPySpace (c : Char) : Bool :=
  c = ' ' || c = '\t' || c = '\n' || c = '\x0d' || c = '\x0b' || c = '\x0c'

/-- The character class `[A-Za-zА-Яа-яЁё]` used by `_tokenize`
(scheduler.py:3619) and `_apply_blackbox_effect` (scheduler.py:3324). -/
def isTokenChar (c : Char) : Bool :=
  ('A' ≤ c && c ≤ 'Z') || ('a' ≤ c && c ≤ 'z') ||
  ('А' ≤ c && c ≤ 'я') || c = 'Ё' || c = 'ё'

/-- Python `str.lower` restricted to the alphabets the scheduler handles
(ASCII latin and Cyrillic, including Ё); other characters are unchanged. -/
def pyLowerChar (c : Char) : Char :=
  if 'A' ≤ c && c ≤ 'Z' then Char.ofNat (c.toNat + 32)
  else if 'А' ≤ c && c ≤ 'Я' then Char.ofNat (c.toNat + 32)
  else if c = 'Ё' then 'ё'
  else c

/-- Python `str.lower` over a text. -/
def pyLower (s : List Char) : List Char := s.map pyLowerChar

/-- Python `str.strip()`: drop leading and trailing whitespace. -/
def pyStrip (s : List Char) : List Char :=
  ((s.dropWhile isPySpace).reverse.dropWhile isPySpace).reverse

/-- `re.findall(r"[A-Za-zА-Яа-яЁё]+", ·)`: the maximal letter runs of a text,
left to right.  Accumulator-based scan (`acc` holds the current run reversed). -/
def letterRunsAux : List Char → List Char → List (List Char)
  | acc, [] => if acc.isEmpty then [] else [acc.reverse]
  | acc, c :: rest =>
      if isTokenChar c then letterRunsAux (c :: acc) rest
      else if acc.isEmpty then letterRunsAux [] rest
      else acc.reverse :: letterRunsAux [] rest

/-- All maximal `[A-Za-zА-Яа-яЁё]+` runs of a text. -/
def letterRuns (s : List Char) : List (List Char) := letterRunsAux [] s

/-- `_STOPWORDS_RU` (scheduler.py:3384-3535). -/
def STOPWORDS_RU : List (List Char) :=
  (["и", "в", "во", "не", "что", "он", "на", "я", "с", "со", "как", "а", "то",
    "все", "она", "так", "его", "но", "да", "ты", "к", "у", "же", "вы", "за",
    "бы", "по", "ее", "мне", "было", "вот", "от", "меня", "еще", "нет", "о",
    "из", "ему", "теперь", "когда", "даже", "ну", "вдруг", "ли", "если",
    "уже", "или", "ни", "быть", "был", "него", "до", "вас", "нибудь", "опять",
    "уж", "вам", "ведь", "там", "потом", "себя", "ничего", "ей", "может",
    "они", "тут", "где", "есть", "надо", "ней", "для", "мы", "тебя", "их",
    "чем", "была", "сам", "чтоб", "без", "будто", "чего", "раз", "тоже",
    "себе", "под", "будет", "ж", "тогда", "кто", "этот", "того", "потому",
    "этого", "какой", "совсем", "ним", "здесь", "этом", "один", "почти",
    "мой", "тем", "чтобы", "нее", "сейчас", "были", "куда", "зачем", "всех",
    "никогда", "можно", "при", "наконец", "два", "об", "другой", "хоть",
    "после", "над", "больше", "тот", "через", "эти", "нас", "про", "всего",
    "них", "какая", "много", "разве", "три", "эту", "моя", "впрочем",
    "хорошо", "свою", "этой", "перед", "иногда", "лучше", "чуть", "том",
    "нельзя", "такой", "им", "более", "всегда", "конечно", "всю",
    "между"] : List String).map String.toList

/-- `_tokenize` (scheduler.py:3618-3620): lowercase, take letter runs, drop
stopwords and tokens of length ≤ 3. -/
def tokenize (text : List Char) : List (List Char) :=
  (letterRuns (pyLower text)).filter
    (fun w => !STOPWORDS_RU.contains w && w.length > 3)

/-- Python `max(scores)` guarded by `if len(scores) > 0 else 0.0`. -/
def pyMaxOrZero : List ℚ → ℚ
  | [] => 0
  | x :: xs => xs.foldl max x

/-- `_is_similar_news_bm25` (scheduler.py:3538-3580).  `history` is the
pipeline's `PostHistory` texts newest-first (the DB query orders by id
descending and limits to `windowSize`); the BM25 library (`rank_bm25`, a
third-party package outside this repository) is abstracted as `scorer`,
mapping a corpus (list of token lists) and query tokens to one score per
corpus document. -/
def isSimilarNewsBm25
    (scorer : List (List (List Char)) → List (List Char) → List ℚ)
    (history : List (List Char)) (text : List Char)
    (windowSize : ℤ) (threshold : ℚ) : Bool × ℚ :=
  if windowSize ≤ 0 then (false, 0)
  else
    let recentTexts := history.take windowSize.toNat
    if recentTexts.isEmpty then (false, 0)
    else
      let textStripped := pyStrip text
      let recentTexts := recentTexts.filter (fun t => pyStrip t ≠ textStripped)
      if recentTexts.isEmpty then (false, 0)
      else
        let queryTokens := tokenize text
        if queryTokens.isEmpty then (false, 0)
        else
          let corpusTokens := (recentTexts.map tokenize).filter (fun t => !t.isEmpty)
          if corpusTokens.isEmpty then (false, 0)
          else
            let scores := scorer corpusTokens queryTokens
            let maxScore := pyMaxOrZero scores
            (threshold ≤ maxScore, maxScore)

/-! ### Scheduler tick (`run_service`, scheduler.py:825-933) -/

/-- A pipeline row joined with its `PipelineState.last_run_at`
(`run_service` reads the state row of each pipeline before the due test). -/
structure SchedPipeline where
  id : ℤ
  name : String
  account_name : Option String
  is_enabled : Bool
  pipeline_type : String
  interval_seconds : ℤ
  last_run_at : Option ℤ
  deriving Repr, DecidableEq

/-- The flood-wait part of `AccountRuntime` consulted by the tick loop. -/
structure SchedAccount where
  flood_wait_until : Option ℤ
  deriving Repr, DecidableEq

/-- `_is_account_in_flood_wait` (scheduler.py:3635-3638). -/
def floodWaitActive (a : SchedAccount) (now : ℤ) : Bool :=
  match a.flood_wait_until with
  | none => false
  | some u => decide (now < u)

/-- The due test of `run_service` (scheduler.py:838-845): enabled and
(`last_run_at` is null or `now - last_run_at >= interval_seconds`). -/
def isDue (now : ℤ) (p : SchedPipeline) : Bool :=
  p.is_enabled &&
    match p.last_run_at with
    | none => true
    | some t => decide (p.interval_seconds ≤ now - t)

/-- Whether the tick loop can process a pipeline: its account
(`pipeline.account_name or "default"`) is configured and not in flood wait
(scheduler.py:850-865). -/
def accountEligible (accounts : String → Option SchedAccount) (now : ℤ)
    (p : SchedPipeline) : Bool :=
  match accounts (p.account_name.getD "default") with
  | none => false
  | some a => !floodWaitActive a now

/-- The publish loop of `run_service` (scheduler.py:847-893): walk the due
pipelines in order, skip those whose account is missing or flood-waited, run
the runner for the first remaining one and `break`.  Returns the pipeline that
was processed, if any. -/
def runPublishLoop (accounts : String → Option SchedAccount) (now : ℤ) :
    List SchedPipeline → Option SchedPipeline
  | [] => none
  | p :: rest =>
      if accountEligible accounts now p then some p
      else runPublishLoop accounts now rest

/-- One tick of `run_service`'s publish phase: compute the due list, process
the first eligible due pipeline, set its `last_run_at := now`, and leave every
other pipeline untouched.  Returns the updated rows and the processed
pipeline. -/
def schedulerTick (accounts : String → Option SchedAccount) (now : ℤ)
    (pipelines : List SchedPipeline) : List SchedPipeline × Option SchedPipeline :=
  let due := pipelines.filter (isDue now)
  match runPublishLoop accounts now due with
  | none => (pipelines, none)
  | some p =>
      (pipelines.map (fun q =>
        if q.id = p.id then { q with last_run_at := some now } else q), some p)

/-! ### Discussion bot weights (`DiscussionBotWeight` rows and their users) -/

/-- Mirror of a `DiscussionBotWeight` row.  `used_today_date` (a
`"%Y-%m-%d"` string in the source) is modelled as an integer day number;
timestamps are rationals (seconds). -/
structure DiscussionBotWeight where
  account_name : List Char
  weight : ℚ
  daily_limit : ℤ
  cooldown_minutes : ℤ
  used_today : ℤ
  used_today_date : ℤ
  last_used_at : Option ℚ
  deriving Repr, DecidableEq

/-- Fallback row (stands for the unreachable index-error cases of
`random.choice` / `weights[-1]` on an empty list). -/
def defaultBot : DiscussionBotWeight := ⟨[], 0, 0, 0, 0, 0, none⟩

/-- The day-reset prefix shared by `_filter_available_bots`,
`_update_bot_usage` and `_can_use_bot_for_reply`: if `used_today_date` is not
today, zero the counter and stamp today. -/
def resetIfNewDay (r : DiscussionBotWeight) (today : ℤ) : DiscussionBotWeight :=
  if r.used_today_date ≠ today then
    { r with used_today := 0, used_today_date := today }
  else r

/-- `_update_bot_usage` (scheduler.py:2193-2209): day-reset, then increment
`used_today` and stamp `last_used_at` — with no daily-limit check.
`today` is the calendar day of `now` (`now.strftime("%Y-%m-%d")`). -/
def updateBotUsage (r : DiscussionBotWeight) (now : ℚ) (today : ℤ) :
    DiscussionBotWeight :=
  let r := resetIfNewDay r today
  { r with used_today := r.used_today + 1, last_used_at := some now }

/-- `_can_use_bot_for_reply` (scheduler.py:2964-2988): day-reset, then refuse
when the daily limit is reached or the cooldown has not elapsed
(`(now - last_used_at)/60 < cooldown_minutes`).  Returns the decision and the
(possibly day-reset) row, since the source mutates the row in place. -/
def canUseBotForReply (r : DiscussionBotWeight) (now : ℚ) (today : ℤ) :
    Bool × DiscussionBotWeight :=
  let r := resetIfNewDay r today
  if r.daily_limit ≤ r.used_today then (false, r)
  else
    match r.last_used_at with
    | some l =>
        if (now - l) / 60 < (r.cooldown_minutes : ℚ) then (false, r) else (true, r)
    | none => (true, r)

/-! ### Weighted bot selection (`_select_discussion_bots`,
`_weighted_choice_with_map`, scheduler.py:1917-1961) -/

/-- The effective weight of a bot: `effective_weights.get(account_name,
item.weight)` when a map is given, else the base weight. -/
def effWeight (ew : Option (List Char → Option ℚ)) (b : DiscussionBotWeight) : ℚ :=
  match ew with
  | none => b.weight
  | some f => (f b.account_name).getD b.weight

/-- Total effective weight of a list of bots. -/
def totalEffWeight (ew : Option (List Char → Option ℚ))
    (bots : List DiscussionBotWeight) : ℚ :=
  (bots.map (effWeight ew)).sum

/-- The cumulative walk of `_weighted_choice_with_map` (scheduler.py:1952-1960):
return the first bot whose cumulative effective weight reaches `pick`. -/
def cumulativePick (ew : Option (List Char → Option ℚ)) (pick : ℚ) :
    ℚ → List DiscussionBotWeight → Option DiscussionBotWeight
  | _, [] => none
  | cum, b :: rest =>
      if pick ≤ cum + effWeight ew b then some b
      else cumulativePick ew pick (cum + effWeight ew b) rest

/-- The RNG draws consumed by `_select_discussion_bots`: the two
`random.uniform(0, total)` values, the two `random.choice` indices of the
zero-total fallback, and the `random.randint(0, len-1)` start of the
three-bot branch. -/
structure SelectRng where
  pick1 : ℚ
  pick2 : ℚ
  idx1 : ℕ
  idx2 : ℕ
  start : ℕ

/-- `_weighted_choice_with_map` (scheduler.py:1943-1961): if the total
effective weight is ≤ 0, `random.choice` (modelled by the RNG index reduced
mod the length); otherwise the cumulative walk with `weights[-1]` as
fallback. -/
def weightedChoiceWithMap (bots : List DiscussionBotWeight)
    (ew : Option (List Char → Option ℚ)) (pick : ℚ) (idx : ℕ) :
    DiscussionBotWeight :=
  if totalEffWeight ew bots ≤ 0 then bots.getD (idx % bots.length) defaultBot
  else
    match cumulativePick ew pick 0 bots with
    | some b => b
    | none => bots.getLastD defaultBot

/-- Lexicographic `<=` on character lists (Python string comparison by code
points), used for `sorted(..., key=lambda item: item.account_name)`. -/
def charListLe : List Char → List Char → Bool
  | [], _ => true
  | _ :: _, [] => false
  | a :: as, b :: bs =>
      if a < b then true
      else if b < a then false
      else charListLe as bs

/-- Stable insertion by `account_name` (helper for Python's stable
`sorted(weights, key=lambda item: item.account_name)`). -/
def insertByName (b : DiscussionBotWeight) :
    List DiscussionBotWeight → List DiscussionBotWeight
  | [] => [b]
  | x :: xs =>
      if charListLe b.account_name x.account_name then b :: x :: xs
      else x :: insertByName b xs

/-- `sorted(weights, key=lambda item: item.account_name)` — a stable sort by
account name (insertion sort). -/
def sortByName : List DiscussionBotWeight → List DiscussionBotWeight
  | [] => []
  | x :: xs => insertByName x (sortByName xs)

/-- `_select_discussion_bots` (scheduler.py:1917-1941).  For `count == 1` and
`count == 2` successive weighted choices (the second over
`[item for item in weights if item != first]`, falling back to `first` when
empty); for `count >= 3` the bots are sorted by `account_name` and `count`
cyclically-consecutive entries are taken from a random start index. -/
def selectDiscussionBots (bots : List DiscussionBotWeight) (count : ℕ)
    (ew : Option (List Char → Option ℚ)) (rng : SelectRng) :
    List DiscussionBotWeight :=
  if count = 0 then []
  else if count = 1 then [weightedChoiceWithMap bots ew rng.pick1 rng.idx1]
  else if count = 2 then
    let first := weightedChoiceWithMap bots ew rng.pick1 rng.idx1
    let remaining := bots.filter (fun b => b != first)
    let second :=
      if remaining.isEmpty then first
      else weightedChoiceWithMap remaining ew rng.pick2 rng.idx2
    [first, second]
  else
    let ordered := sortByName bots
    (List.range count).map (fun o =>
      ordered.getD ((rng.start + o) % ordered.length) defaultBot)

/-- Modelled from the spec: "Select `repliesCount` bots via successive
weighted picks without replacement using effective weights."  One weighted
pick (the inverse-CDF walk of the spec's `weightedPick`, with the last item
as fallback) followed by removal of the picked bot. -/
def specWeightedPick (ew : Option (List Char → Option ℚ))
    (bots : List DiscussionBotWeight) (r : ℚ) :
    Option (DiscussionBotWeight × List DiscussionBotWeight) :=
  match bots with
  | [] => none
  | _ :: _ =>
      let b :=
        match cumulativePick ew r 0 bots with
        | some b => b
        | none => bots.getLastD defaultBot
      some (b, bots.erase b)

/-- Modelled from the spec: successive weighted picks without replacement —
`count` rounds of `specWeightedPick`, consuming one RNG draw per round. -/
def specSelectBots (ew : Option (List Char → Option ℚ)) :
    ℕ → List DiscussionBotWeight → List ℚ → Option (List DiscussionBotWeight)
  | 0, _, _ => some []
  | _ + 1, _, [] => none
  | n + 1, bots, r :: rs =>
      match specWeightedPick ew bots r with
      | none => none
      | some (b, rest) => (specSelectBots ew n rest rs).map (b :: ·)

/-! ### Blackbox visual distortion (`_apply_blackbox_effect` /
`_distort_word`, scheduler.py:3317-3381) -/

/-- Python `str.islower` on the alphabets the scheduler handles. -/
def isLowerCh (c : Char) : Bool :=
  ('a' ≤ c && c ≤ 'z') || ('а' ≤ c && c ≤ 'я') || c = 'ё'

/-- Python `str.isupper` on the alphabets the scheduler handles. -/
def isUpperCh (c : Char) : Bool :=
  ('A' ≤ c && c ≤ 'Z') || ('А' ≤ c && c ≤ 'Я') || c = 'Ё'

/-- Python `str.isalpha` on the alphabets the scheduler handles. -/
def isAlphaCh (c : Char) : Bool := isLowerCh c || isUpperCh c

/-- Python `str.upper` for a single character of the handled alphabets. -/
def toUpperCh (c : Char) : Char :=
  if 'a' ≤ c && c ≤ 'z' then Char.ofNat (c.toNat - 32)
  else if 'а' ≤ c && c ≤ 'я' then Char.ofNat (c.toNat - 32)
  else if c = 'ё' then 'Ё'
  else c

/-- The per-character case flip of `_distort_word` (scheduler.py:3375-3380):
lower → upper, upper → lower, else unchanged. -/
def swapCaseChar (c : Char) : Char :=
  if isLowerCh c then toUpperCh c
  else if isUpperCh c then pyLowerChar c
  else c

/-- A piece of the text as seen by `re.finditer` in `_apply_blackbox_effect`:
either a regex match (a maximal letter run of length ≥ `min_word_len`) or
surrounding text. -/
inductive Seg where
  | gap : List Char → Seg
  | word : List Char → Seg
  deriving Repr, DecidableEq

/-- The characters of a segment. -/
def Seg.chars : Seg → List Char
  | gap cs => cs
  | word cs => cs

/-- Close the current letter run: a word if it reaches the minimal length,
otherwise plain text. -/
def finishRun (m : ℕ) (run : List Char) : Seg :=
  if m ≤ run.length then Seg.word run.reverse else Seg.gap run.reverse

/-- Scan the text into segments: maximal `[A-Za-zА-Яа-яЁё]` runs of length
≥ `m` become `word`s (the regex matches of
`[A-Za-zА-Яа-яЁё]{min_word_len,}`), everything else is `gap` text.  `run`
accumulates the current letter run reversed. -/
def segsAux (m : ℕ) : List Char → List Char → List Seg
  | run, [] => if run.isEmpty then [] else [finishRun m run]
  | run, c :: rest =>
      if isTokenChar c then segsAux m (c :: run) rest
      else if run.isEmpty then Seg.gap [c] :: segsAux m [] rest
      else finishRun m run :: Seg.gap [c] :: segsAux m [] rest

/-- Rebuild the text from segments (the `result` concatenation of
`_apply_blackbox_effect`). -/
def joinSegs (segs : List Seg) : List Char :=
  segs.foldr (fun s acc => s.chars ++ acc) []

/-- Number of regex matches (words) among the segments. -/
def countWords (segs : List Seg) : ℕ :=
  (segs.filter (fun s => match s with | Seg.word _ => true | _ => false)).length

/-- Python `int(x)` for floats: truncation toward zero, on ℚ. -/
def pyInt (q : ℚ) : ℤ :=
  if q < 0 then -((-q).floor) else q.floor

/-- The greedy 1-gap selection loop of `_apply_blackbox_effect`
(scheduler.py:3336-3345): walk the shuffled word indices, skip blocked ones,
select until `target` indices are chosen, blocking each chosen index's
neighbours (`idx - 1`, `idx + 1`, as integers like Python's `set`). -/
def blackboxSelectAux (target : ℕ) :
    List ℕ → List ℕ → List ℤ → List ℕ
  | [], sel, _ => sel
  | idx :: rest, sel, blocked =>
      if blocked.contains (idx : ℤ) then blackboxSelectAux target rest sel blocked
      else
        let sel' := sel ++ [idx]
        if target ≤ sel'.length then sel'
        else blackboxSelectAux target rest sel'
          (((idx : ℤ) - 1) :: ((idx : ℤ) + 1) :: blocked)

/-- The selected word indices: `order` is the RNG's shuffle of
`range(total_words)`. -/
def blackboxSelect (order : List ℕ) (target : ℕ) : List ℕ :=
  blackboxSelectAux target order [] []

/-- `_distort_word` (scheduler.py:3365-3381): collect the alphabetic
positions, return the word unchanged if there are fewer than two, otherwise
flip the case of `min(distort_max, max(distort_min, len(positions)//2))`
characters at the shuffled positions (`perm` is the RNG's shuffle of
`positions`). -/
def distortWord (perm : List ℕ) (distortMin distortMax : ℕ)
    (w : List Char) : List Char :=
  let positions := (List.range w.length).filter (fun i => isAlphaCh (w.getD i ' '))
  if positions.length < 2 then w
  else
    let distortCount := min distortMax (max distortMin (positions.length / 2))
    let chosen := perm.take distortCount
    w.mapIdx (fun i c => if chosen.contains i then swapCaseChar c else c)

/-- Rebuild the text, distorting the selected words: `i` is the running word
index (Python's `word_index`), `distort i` the per-word distortion with that
word's RNG draws. -/
def applyBlackboxSegs (distort : ℕ → List Char → List Char)
    (sel : ℕ → Bool) : ℕ → List Seg → List Char
  | _, [] => []
  | i, Seg.gap g :: rest => g ++ applyBlackboxSegs distort sel i rest
  | i, Seg.word w :: rest =>
      (if sel i then distort i w else w) ++
        applyBlackboxSegs distort sel (i + 1) rest

/-- `_apply_blackbox_effect` (scheduler.py:3317-3362).  The RNG is explicit:
`order` is the shuffled word-index list (`candidate_indices` after
`rng.shuffle`), `perms i` the shuffled alphabetic-position list used by
`_distort_word` on word `i`. -/
def applyBlackboxEffect (text : List Char) (ratio : ℚ) (minWordLen : ℕ)
    (distortMin distortMax : ℕ) (order : List ℕ) (perms : ℕ → List ℕ) :
    List Char :=
  let segs := segsAux (max minWordLen 1) [] text
  let totalWords := countWords segs
  if totalWords = 0 then text
  else
    let target := (max 1 (pyInt ((totalWords : ℚ) * ratio))).toNat
    let sel := blackboxSelect order target
    if sel.isEmpty then text
    else
      applyBlackboxSegs (fun i w => distortWord (perms i) distortMin distortMax w)
        (fun i => sel.contains i) 0 segs

/-! ### Pipeline-D candidate anti-repeat filters
(`_process_discussion_pipeline`, scheduler.py:1276-1361) -/

/-- Mirror of the `PostCandidate` namedtuple (scheduler.py:18). -/
structure PostCandidate where
  message_id : ℤ
  text : List Char
  created_at : ℤ
  deriving Repr, DecidableEq

/-- The topic test of the recent-topics filter (scheduler.py:1283-1285):
the candidate's extracted topics, lowercased, intersect `recent_topics`.
`topicsOf` abstracts `extract_topics_for_text` (a fixed keyword lexicon). -/
def topicHit (recentTopics : List (List Char))
    (topicsOf : List Char → List (List Char)) (c : PostCandidate) : Bool :=
  (topicsOf c.text).any (fun t => recentTopics.contains (pyLower t))

/-- The newest-candidate preservation step (scheduler.py:1289-1290,
1310-1311, 1343-1344): if the newest candidate got filtered out, put it back
in front. -/
def preserveNewest (newest : Option PostCandidate)
    (filtered : List PostCandidate) : List PostCandidate :=
  match newest with
  | none => filtered
  | some nc =>
      if filtered.contains nc then filtered
      else nc :: filtered.filter (fun c => c != nc)

/-- One anti-repeat filter block: when `flag` holds and more than one
candidate remains, drop the candidates matched by `p` but preserve the
newest. -/
def filterStage (newest : Option PostCandidate) (flag : Bool)
    (p : PostCandidate → Bool) (l : List PostCandidate) : List PostCandidate :=
  if flag && l.length > 1 then preserveNewest newest (l.filter (fun c => !p c))
  else l

/-- The three anti-repeat filters of Pipeline-D candidate collection, in
source order (recent topics, fingerprint ring, BM25), applied to the
candidate list that remains after the `last_source_post_id` exclusion.
`topicsOf`, `fpOf` and `bm25Sim` abstract `extract_topics_for_text`,
`topic_fingerprint` and `_is_similar_news_bm25`'s verdict against the
session's post history. -/
def discussionAntiRepeatFilter (recentTopics : List (List Char))
    (topicsOf : List Char → List (List Char)) (seenFps : List (List Char))
    (fpOf : List Char → List Char) (bm25Window : ℤ)
    (bm25Sim : List Char → Bool) (candidates : List PostCandidate) :
    List PostCandidate :=
  let newest := candidates.head?
  let c1 := filterStage newest (!recentTopics.isEmpty)
    (fun c => topicHit recentTopics topicsOf c) candidates
  let c2 := filterStage newest (!seenFps.isEmpty)
    (fun c => seenFps.contains (fpOf c.text)) c1
  filterStage newest (decide (0 < bm25Window)) (fun c => bm25Sim c.text) c2

/-! ### Gender grammar fix (grammar_fix.py) -/

/-- Python `\\w` (word character) for the alphabets the repository handles:
latin/Cyrillic letters, digits and underscore. -/
def isWordChar (c : Char) : Bool :=
  isTokenChar c || ('0' ≤ c && c ≤ '9') || c = '_'

/-- The two regex shapes of the replacement tables: `\\b w \\b` and
`\\b w1 \\s+ w2 \\b`. -/
inductive GPat where
  | one : List Char → GPat
  | two : List Char → List Char → GPat
  deriving Repr, DecidableEq

/-- Strip a literal prefix, returning the remaining suffix. -/
def dropLit : List Char → List Char → Option (List Char)
  | [], s => some s
  | _, [] => none
  | p :: ps, c :: cs => if c = p then dropLit ps cs else none

/-- `\\b` after the match: the next character is a non-word character or the
end of the string. -/
def endBoundary : List Char → Bool
  | [] => true
  | c :: _ => !isWordChar c

/-- Match a pattern at the start of `s` (the `\\b` before the match is the
caller's duty), returning the number of characters consumed. -/
def matchPatAt (p : GPat) (s : List Char) : Option ℕ :=
  match p with
  | GPat.one w =>
      match dropLit w s with
      | none => none
      | some rest => if endBoundary rest then some w.length else none
  | GPat.two w1 w2 =>
      match dropLit w1 s with
      | none => none
      | some rest =>
          let ws := rest.takeWhile isPySpace
          if ws.isEmpty then none
          else
            match dropLit w2 (rest.drop ws.length) with
            | none => none
            | some rest2 =>
                if endBoundary rest2 then some (w1.length + ws.length + w2.length)
                else none

/-- `\\b` before the match: start of string or previous character non-word.
(Both tables' patterns start with a word character.) -/
def prevBoundary : Option Char → Bool
  | none => true
  | some c => !isWordChar c

/-- The last character of a pattern (every pattern ends in a word character);
it becomes the "previous character" for the boundary check after a match. -/
def patLastChar (p : GPat) : Char :=
  match p with
  | GPat.one w => w.getLastD ' '
  | GPat.two _ w2 => w2.getLastD ' '

/-- `pattern.sub(replacement, ·)`: replace every non-overlapping leftmost
match, scanning left to right; `prev` is the character before the current
position (for `\\b`). -/
def subPatF (p : GPat) (repl : List Char) :
    ℕ → Option Char → List Char → List Char
  | 0, _, s => s
  | _, _, [] => []
  | fuel + 1, prev, c :: rest =>
      if prevBoundary prev then
        match matchPatAt p (c :: rest) with
        | some (n + 1) =>
            repl ++ subPatF p repl fuel (some (patLastChar p)) (rest.drop n)
        | _ => c :: subPatF p repl fuel (some c) rest
      else c :: subPatF p repl fuel (some c) rest

/-- `pattern.sub` with enough fuel for the whole string (each step consumes at
least one character, so `s.length` suffices). -/
def subPat (p : GPat) (repl : List Char) (prev : Option Char)
    (s : List Char) : List Char :=
  subPatF p repl s.length prev s

/-- Apply a replacement table in order (the `for pattern, replacement in
replacements` loop of `fix_gender_grammar`). -/
def applyReplacements (reps : List (GPat × List Char)) (s : List Char) : List Char :=
  reps.foldl (fun acc pr => subPat pr.1 pr.2 none acc) s

/-- `_FEMALE_REPLACEMENTS` (grammar_fix.py:15-57). -/
def FEMALE_REPLACEMENTS : List (GPat × List Char) :=
  [(GPat.two "не".toList "согласен".toList, "не согласна".toList),
   (GPat.two "Не".toList "согласен".toList, "Не согласна".toList),
   (GPat.two "не".toList "уверен".toList, "не уверена".toList),
   (GPat.two "Не".toList "уверен".toList, "Не уверена".toList),
   (GPat.two "не".toList "удивлён".toList, "не удивлена".toList),
   (GPat.two "Не".toList "удивлён".toList, "Не удивлена".toList),
   (GPat.two "не".toList "удивлен".toList, "не удивлена".toList),
   (GPat.two "Не".toList "удивлен".toList, "Не удивлена".toList),
   (GPat.two "бы".toList "сказал".toList, "бы сказала".toList),
   (GPat.two "Бы".toList "сказал".toList, "Бы сказала".toList),
   (GPat.two "бы".toList "уточнил".toList, "бы уточнила".toList),
   (GPat.two "бы".toList "поспорил".toList, "бы поспорила".toList),
   (GPat.two "бы".toList "добавил".toList, "бы добавила".toList),
   (GPat.two "бы".toList "отметил".toList, "бы отметила".toList),
   (GPat.two "бы".toList "подумал".toList, "бы подумала".toList),
   (GPat.two "бы".toList "считал".toList, "бы считала".toList),
   (GPat.two "бы".toList "хотел".toList, "бы хотела".toList),
   (GPat.two "бы".toList "сделал".toList, "бы сделала".toList),
   (GPat.two "бы".toList "решил".toList, "бы решила".toList),
   (GPat.two "бы".toList "написал".toList, "бы написала".toList),
   (GPat.two "бы".toList "ответил".toList, "бы ответила".toList),
   (GPat.two "бы".toList "согласился".toList, "бы согласилась".toList),
   (GPat.two "бы".toList "думал".toList, "бы думала".toList),
   (GPat.two "Сказал".toList "бы".toList, "Сказала бы".toList),
   (GPat.two "сказал".toList "бы".toList, "сказала бы".toList),
   (GPat.two "Уточнил".toList "бы".toList, "Уточнила бы".toList),
   (GPat.two "Поспорил".toList "бы".toList, "Поспорила бы".toList),
   (GPat.two "Добавил".toList "бы".toList, "Добавила бы".toList),
   (GPat.two "Подумал".toList "бы".toList, "Подумала бы".toList),
   (GPat.one "согласен".toList, "согласна".toList),
   (GPat.one "Согласен".toList, "Согласна".toList),
   (GPat.one "уверен".toList, "уверена".toList),
   (GPat.one "Уверен".toList, "Уверена".toList),
   (GPat.one "удивлён".toList, "удивлена".toList),
   (GPat.one "Удивлён".toList, "Удивлена".toList),
   (GPat.one "удивлен".toList, "удивлена".toList),
   (GPat.one "Удивлен".toList, "Удивлена".toList),
   (GPat.one "готов".toList, "готова".toList),
   (GPat.one "Готов".toList, "Готова".toList),
   (GPat.one "прав".toList, "права".toList),
   (GPat.one "Прав".toList, "Права".toList)]

/-- `_MALE_REPLACEMENTS` (grammar_fix.py:60-97). -/
def MALE_REPLACEMENTS : List (GPat × List Char) :=
  [(GPat.two "не".toList "согласна".toList, "не согласен".toList),
   (GPat.two "Не".toList "согласна".toList, "Не согласен".toList),
   (GPat.two "не".toList "уверена".toList, "не уверен".toList),
   (GPat.two "Не".toList "уверена".toList, "Не уверен".toList),
   (GPat.two "не".toList "удивлена".toList, "не удивлён".toList),
   (GPat.two "Не".toList "удивлена".toList, "Не удивлён".toList),
   (GPat.two "бы".toList "сказала".toList, "бы сказал".toList),
   (GPat.two "бы".toList "уточнила".toList, "бы уточнил".toList),
   (GPat.two "бы".toList "поспорила".toList, "бы поспорил".toList),
   (GPat.two "бы".toList "добавила".toList, "бы добавил".toList),
   (GPat.two "бы".toList "отметила".toList, "бы отметил".toList),
   (GPat.two "бы".toList "подумала".toList, "бы подумал".toList),
   (GPat.two "бы".toList "считала".toList, "бы считал".toList),
   (GPat.two "бы".toList "хотела".toList, "бы хотел".toList),
   (GPat.two "бы".toList "сделала".toList, "бы сделал".toList),
   (GPat.two "бы".toList "решила".toList, "бы решил".toList),
   (GPat.two "бы".toList "написала".toList, "бы написал".toList),
   (GPat.two "бы".toList "ответила".toList, "бы ответил".toList),
   (GPat.two "бы".toList "согласилась".toList, "бы согласился".toList),
   (GPat.two "бы".toList "думала".toList, "бы думал".toList),
   (GPat.two "Сказала".toList "бы".toList, "Сказал бы".toList),
   (GPat.two "сказала".toList "бы".toList, "сказал бы".toList),
   (GPat.two "Уточнила".toList "бы".toList, "Уточнил бы".toList),
   (GPat.two "Поспорила".toList "бы".toList, "Поспорил бы".toList),
   (GPat.two "Добавила".toList "бы".toList, "Добавил бы".toList),
   (GPat.two "Подумала".toList "бы".toList, "Подумал бы".toList),
   (GPat.one "согласна".toList, "согласен".toList),
   (GPat.one "Согласна".toList, "Согласен".toList),
   (GPat.one "уверена".toList, "уверен".toList),
   (GPat.one "Уверена".toList, "Уверен".toList),
   (GPat.one "удивлена".toList, "удивлён".toList),
   (GPat.one "Удивлена".toList, "Удивлён".toList),
   (GPat.one "готова".toList, "готов".toList),
   (GPat.one "Готова".toList, "Готов".toList),
   (GPat.one "права".toList, "прав".toList),
   (GPat.one "Права".toList, "Прав".toList)]

/-- `fix_gender_grammar` (grammar_fix.py:100-131): empty or blank text, or a
gender outside {male, female}, is returned unchanged with `changed = False`;
otherwise the matching table is applied to the first `prefix_chars` (80)
characters only and the remainder is reattached. -/
def fixGenderGrammar (text : List Char) (gender : String)
    (prefixChars : ℕ := 80) : List Char × Bool :=
  if text.isEmpty || (pyStrip text).isEmpty then (text, false)
  else if gender = "male" ∨ gender = "female" then
    let pfx := text.take prefixChars
    let rest := text.drop prefixChars
    let reps := if gender = "female" then FEMALE_REPLACEMENTS else MALE_REPLACEMENTS
    let resultPrefix := applyReplacements reps pfx
    let newText := resultPrefix ++ rest
    (newText, decide (newText ≠ text))
  else (text, false)

/-! ### Fingerprint normalization (`normalize_text_for_fingerprint` /
`topic_fingerprint`, scheduler.py:739-755)

This part of the embedding models text as `List ℕ` (Unicode code points), so
that the character-class arithmetic stays in `ℕ`.  Code points used below:
space 32, tab 9, LF 10, CR 13, VT 11, FF 12; digits 48-57; `A`-`Z` 65-90;
`a`-`z` 97-122; `_` 95; `@` 64; `#` 35; Cyrillic `А`-`я` 1040-1103, `Ё` 1025,
`ё` 1105; `h t p s : /` are 104 116 112 115 58 47. -/

/-- Python `\\s` / `str.strip` whitespace (ASCII part), on code points. -/
def nIsSpace (c : ℕ) : Bool :=
  c = 32 || c = 9 || c = 10 || c = 13 || c = 11 || c = 12

/-- Python `\\d`, on code points. -/
def nIsDigit (c : ℕ) : Bool := 48 ≤ c && c ≤ 57

/-- Python `\\w` for the alphabets the repository handles, on code points. -/
def nIsWord (c : ℕ) : Bool :=
  (65 ≤ c && c ≤ 90) || (97 ≤ c && c ≤ 122) || nIsDigit c || c = 95 ||
  (1040 ≤ c && c ≤ 1103) || c = 1025 || c = 1105

/-- Python `str.lower` for the handled alphabets, on code points. -/
def nLower (c : ℕ) : ℕ :=
  if 65 ≤ c ∧ c ≤ 90 then c + 32
  else if 1040 ≤ c ∧ c ≤ 1071 then c + 32
  else if c = 1025 then 1105
  else c

/-- Python `str.strip()`, on code points. -/
def nStrip (s : List ℕ) : List ℕ :=
  ((s.dropWhile nIsSpace).reverse.dropWhile nIsSpace).reverse

/-- The shape shared by all five `re.sub` patterns of
`normalize_text_for_fingerprint`: a choice of literal prefixes followed by a
nonempty greedy run of a character class (`https?://\\S+`, `@\\w+`, `#\\w+`,
`\\d+`, `\\s+`). -/
structure RunMatcher where
  protos : List (List ℕ)
  runPred : ℕ → Bool

/-- Strip a literal prefix of code points. -/
def dropLitN : List ℕ → List ℕ → Option (List ℕ)
  | [], s => some s
  | _, [] => none
  | p :: ps, c :: cs => if c = p then dropLitN ps cs else none

/-- Try the literal prefixes in order (regex alternation with backtracking:
for `https?://`, `https://` is tried before `http://`). -/
def protoPrefixLen : List (List ℕ) → List ℕ → Option ℕ
  | [], _ => none
  | p :: ps, s =>
      match dropLitN p s with
      | some _ => some p.length
      | none => protoPrefixLen ps s

/-- Match length of a run pattern at the start of `s`: a literal prefix plus
a nonempty maximal run. -/
def runMatchLen (M : RunMatcher) (s : List ℕ) : Option ℕ :=
  match protoPrefixLen M.protos s with
  | none => none
  | some k =>
      let run := (s.drop k).takeWhile M.runPred
      if run.isEmpty then none else some (k + run.length)

/-- `re.sub(pattern, repl, ·)` for a run pattern and a single replacement
character: leftmost non-overlapping scan.  Fuel-based so that the kernel can
evaluate it; each step consumes at least one character, so `s.length` fuel
suffices. -/
def scanSubF (M : RunMatcher) (r : ℕ) : ℕ → List ℕ → List ℕ
  | 0, s => s
  | _, [] => []
  | fuel + 1, c :: rest =>
      match runMatchLen M (c :: rest) with
      | some (n + 1) => r :: scanSubF M r fuel (rest.drop n)
      | _ => c :: scanSubF M r fuel rest

/-- `re.sub` with adequate fuel. -/
def scanSub (M : RunMatcher) (r : ℕ) (s : List ℕ) : List ℕ :=
  scanSubF M r s.length s

/-- `https?://\\S+` (replacement `" "`). -/
def urlM : RunMatcher :=
  ⟨[[104, 116, 116, 112, 115, 58, 47, 47], [104, 116, 116, 112, 58, 47, 47]],
   fun c => !nIsSpace c⟩

/-- `@\\w+` (replacement `" "`). -/
def atM : RunMatcher := ⟨[[64]], nIsWord⟩

/-- `#\\w+` (replacement `" "`). -/
def hashM : RunMatcher := ⟨[[35]], nIsWord⟩

/-- `\\d+` (replacement `"0"`). -/
def digM : RunMatcher := ⟨[[]], nIsDigit⟩

/-- `\\s+` (replacement `" "`). -/
def wsM : RunMatcher := ⟨[[]], nIsSpace⟩

/-- The pipeline of `normalize_text_for_fingerprint` before the whitespace
collapse: lowercase the stripped text, then remove URLs, `@`-handles,
`#`-tags, and map digit runs to `0`. -/
def prePipe (s : List ℕ) : List ℕ :=
  scanSub digM 48 (scanSub hashM 32 (scanSub atM 32 (scanSub urlM 32 s)))

/-- `normalize_text_for_fingerprint` (scheduler.py:739-749): empty input maps
to the empty string; otherwise strip+lowercase, the four substitutions,
whitespace collapse, strip, and truncation to 800 characters. -/
def normalizeTextForFingerprint (text : List ℕ) : List ℕ :=
  if text.isEmpty then []
  else
    let s := nStrip (scanSub wsM 32 (prePipe ((nStrip text).map nLower)))
    if 800 < s.length then s.take 800 else s

/-- `topic_fingerprint` (scheduler.py:752-755): a stable hash of the
normalized text.  SHA-256 (`hashlib`, outside this repository) truncated to
16 hex characters is abstracted as `hash`. -/
def topicFingerprint (hash : List ℕ → List ℕ) (text : List ℕ) : List ℕ :=
  hash (normalizeTextForFingerprint text)

/-- The pre-truncation value of `normalize_text_for_fingerprint` (the local
`s` of the source): strip+lowercase, the four substitutions, whitespace
collapse, and the final strip. -/
def normCore (text : List ℕ) : List ℕ :=
  nStrip (scanSub wsM 32 (prePipe ((nStrip text).map nLower)))

/-- The normalized text ends in a whitespace character (only possible when
the 800-character truncation cut right after a space). -/
def endsInSpace (s : List ℕ) : Bool :=
  match s.getLast? with
  | some c => nIsSpace c
  | none => false

/-! ## Theorems -/

/-- Helper: the notifications produced by a flood-wait trace all lie strictly
above the starting `flood_wait_notified_until`, and are strictly increasing. -/
theorem floodWaitTrace_notifications (events : List (ℤ × ℤ)) (s : FloodWaitState) :
    (∀ x ∈ (floodWaitTrace s events).2,
        optReached s.flood_wait_notified_until x = false) ∧
    (floodWaitTrace s events).2.Pairwise (· < ·) := by
  induction events generalizing s with
  | nil => simp [floodWaitTrace]
  | cons ev rest ih =>
      by_cases h1 : optReached s.flood_wait_until (ev.1 + ev.2)
      · have hstep : handleFloodWaitBlock s ev.1 ev.2 = (s, none) := by
          simp [handleFloodWaitBlock, h1]
        simpa [floodWaitTrace, hstep] using ih s
      · by_cases h2 : optReached s.flood_wait_notified_until (ev.1 + ev.2)
        · have hstep : handleFloodWaitBlock s ev.1 ev.2 =
              ({ s with flood_wait_until := some (ev.1 + ev.2) }, none) := by
            simp [handleFloodWaitBlock, h1, h2]
          simpa [floodWaitTrace, hstep] using
            ih { s with flood_wait_until := some (ev.1 + ev.2) }
        · have hstep : handleFloodWaitBlock s ev.1 ev.2 =
              (⟨some (ev.1 + ev.2), some (ev.1 + ev.2)⟩, some (ev.1 + ev.2)) := by
            simp [handleFloodWaitBlock, h1, h2]
          have step := ih (⟨some (ev.1 + ev.2), some (ev.1 + ev.2)⟩ : FloodWaitState)
          have hunf : (floodWaitTrace s (ev :: rest)).2 =
              (ev.1 + ev.2) ::
                (floodWaitTrace ⟨some (ev.1 + ev.2), some (ev.1 + ev.2)⟩ rest).2 := by
            simp [floodWaitTrace, hstep]
          rw [hunf]
          refine ⟨?_, ?_⟩
          · intro x hx
            rcases List.mem_cons.mp hx with hx | hx
            · subst hx
              simpa using h2
            · have hgt : optReached (some (ev.1 + ev.2)) x = false := step.1 x hx
              cases hb : s.flood_wait_notified_until with
              | none => rfl
              | some n =>
                  simp only [optReached, decide_eq_false_iff_not, not_le] at hgt ⊢
                  have hn : ¬ (ev.1 + ev.2 ≤ n) := by
                    intro hle
                    exact h2 (by simp [optReached, hb, hle])
                  omega
          · refine List.pairwise_cons.mpr ⟨?_, step.2⟩
            intro x hx
            have hgt : optReached (some (ev.1 + ev.2)) x = false := step.1 x hx
            simp only [optReached, decide_eq_false_iff_not, not_le] at hgt
            exact hgt

/-- C7: handling `FloodWaitBlocked(seconds)` sets `flood_wait_until` to
`max(current, now + seconds)` (so it is monotonically non-decreasing while
active), and over any event sequence started from a fresh account state the
emitted owner notifications have pairwise distinct (indeed strictly
increasing) `until` timestamps — at most one notification per span. -/
theorem c7_flood_wait_monotone_one_shot :
    (∀ (s : FloodWaitState) (now seconds current : ℤ),
        s.flood_wait_until = some current →
        (handleFloodWaitBlock s now seconds).1.flood_wait_until =
          some (max current (now + seconds))) ∧
    (∀ events : List (ℤ × ℤ),
        (floodWaitTrace ⟨none, none⟩ events).2.Pairwise (· < ·)) := by
  constructor
  · intro s now seconds current hcur
    by_cases h : now + seconds ≤ current
    · simp [handleFloodWaitBlock, optReached, hcur, h, max_eq_left h]
    · have hr : optReached s.flood_wait_until (now + seconds) = false := by
        simp [optReached, hcur, h]
      rw [max_eq_right (le_of_not_le h)]
      simp only [handleFloodWaitBlock, hr, Bool.false_eq_true, if_false]
      split <;> rfl
  · intro events
    exact (floodWaitTrace_notifications events ⟨none, none⟩).2

/-- C7 witness: the first part applied at a concrete state (current flood-wait
3, event at `now = 10` with 5 seconds backoff), and the second at a concrete
two-event trace. -/
theorem c7_flood_wait_monotone_one_shot_witness :
    (handleFloodWaitBlock ⟨some 3, none⟩ 10 5).1.flood_wait_until = some (max 3 15) ∧
    (floodWaitTrace ⟨none, none⟩ [(0, 10), (2, 3)]).2.Pairwise (· < ·) :=
  ⟨c7_flood_wait_monotone_one_shot.1 ⟨some 3, none⟩ 10 5 3 rfl,
   c7_flood_wait_monotone_one_shot.2 [(0, 10), (2, 3)]⟩

/-- C10: `_reset_discussion_state` clears exactly the open-question fields
(`question_message_id`, `question_created_at`, `expires_at`, `replies_planned`,
`replies_sent`, `last_bot_reply_at`, `last_reply_parent_id`,
`last_bot_reply_message_id`) and leaves `last_source_post_id`,
`last_source_post_at`, `recent_topics_json` and `next_due_at` unchanged, so
the anti-repeat memory survives question expiry. -/
theorem c10_reset_discussion_state_frame (s : DiscussionState) :
    (resetDiscussionState s).question_message_id = none ∧
    (resetDiscussionState s).question_created_at = none ∧
    (resetDiscussionState s).expires_at = none ∧
    (resetDiscussionState s).replies_planned = 0 ∧
    (resetDiscussionState s).replies_sent = 0 ∧
    (resetDiscussionState s).last_bot_reply_at = none ∧
    (resetDiscussionState s).last_reply_parent_id = none ∧
    (resetDiscussionState s).last_bot_reply_message_id = none ∧
    (resetDiscussionState s).last_source_post_id = s.last_source_post_id ∧
    (resetDiscussionState s).last_source_post_at = s.last_source_post_at ∧
    (resetDiscussionState s).recent_topics_json = s.recent_topics_json ∧
    (resetDiscussionState s).next_due_at = s.next_due_at :=
  ⟨rfl, rfl, rfl, rfl, rfl, rfl, rfl, rfl, rfl, rfl, rfl, rfl⟩

/-- C6: `_is_similar_news_bm25` removes the candidate text itself from the
corpus before scoring, so a history containing exactly the candidate yields
"not similar" — for every text, every window size, every threshold and every
BM25 scorer. -/
theorem c6_bm25_no_self_match
    (scorer : List (List (List Char)) → List (List Char) → List ℚ)
    (X : List Char) (windowSize : ℤ) (threshold : ℚ) :
    isSimilarNewsBm25 scorer [X] X windowSize threshold = (false, 0) := by
  unfold isSimilarNewsBm25
  by_cases h : windowSize ≤ 0
  · simp [h]
  · have htake : ([X] : List (List Char)).take windowSize.toNat = [X] := by
      cases hn : windowSize.toNat with
      | zero => omega
      | succ n => simp
    simp [h, htake, List.filter]

/-- Helper: the publish loop picks exactly the first eligible due pipeline. -/
theorem runPublishLoop_eq_find? (accounts : String → Option SchedAccount)
    (now : ℤ) (l : List SchedPipeline) :
    runPublishLoop accounts now l = l.find? (accountEligible accounts now) := by
  induction l with
  | nil => rfl
  | cons p rest ih =>
      by_cases h : accountEligible accounts now p
      · simp [runPublishLoop, List.find?_cons, h]
      · simp [runPublishLoop, List.find?_cons, h, ih]

/-- C8: in each tick of `run_service`, a pipeline is due iff it is enabled and
(`last_run_at` is null or `now - last_run_at ≥ interval_seconds`); the publish
phase processes exactly the first due pipeline whose account is configured and
not flood-waited (at most one per tick); the processed pipeline gets
`last_run_at := now` while every other row is untouched, and if nothing is
processed no row changes. -/
theorem c8_tick_due_and_single_publish
    (accounts : String → Option SchedAccount) (now : ℤ)
    (pipelines : List SchedPipeline) :
    (∀ p : SchedPipeline, isDue now p = true ↔
        (p.is_enabled = true ∧
          (p.last_run_at = none ∨
            ∃ t, p.last_run_at = some t ∧ p.interval_seconds ≤ now - t))) ∧
    ((schedulerTick accounts now pipelines).2 =
        (pipelines.filter (isDue now)).find? (accountEligible accounts now)) ∧
    (∀ p, (schedulerTick accounts now pipelines).2 = some p →
        isDue now p = true ∧ p ∈ pipelines ∧
        (schedulerTick accounts now pipelines).1 =
          pipelines.map (fun q =>
            if q.id = p.id then { q with last_run_at := some now } else q)) ∧
    ((schedulerTick accounts now pipelines).2 = none →
        (schedulerTick accounts now pipelines).1 = pipelines) := by
  refine ⟨?_, ?_, ?_, ?_⟩
  · intro p
    cases hl : p.last_run_at with
    | none => simp [isDue, hl]
    | some t => simp [isDue, hl]
  · rw [← runPublishLoop_eq_find?]
    cases hfind : runPublishLoop accounts now (pipelines.filter (isDue now)) <;>
      simp [schedulerTick, hfind]
  · intro p hp
    cases hfind : runPublishLoop accounts now (pipelines.filter (isDue now)) with
    | none => simp [schedulerTick, hfind] at hp
    | some q =>
        simp only [schedulerTick, hfind] at hp
        have hq : q = p := by simpa using hp
        subst hq
        have hmem : q ∈ pipelines.filter (isDue now) := by
          have := runPublishLoop_eq_find? accounts now (pipelines.filter (isDue now))
          rw [this] at hfind
          exact List.mem_of_find?_eq_some hfind
        have hmem' := List.mem_filter.mp hmem
        exact ⟨hmem'.2, hmem'.1, by simp [schedulerTick, hfind]⟩
  · intro hnone
    cases hfind : runPublishLoop accounts now (pipelines.filter (isDue now)) with
    | none => simp [schedulerTick, hfind]
    | some q => simp [schedulerTick, hfind] at hnone

/-- C8 witness: a single enabled pipeline with no previous run is due at
`now = 100`, is processed, and its `last_run_at` becomes 100. -/
theorem c8_tick_due_and_single_publish_witness :
    isDue 100 (⟨1, "p", none, true, "STANDARD", 60, none⟩ : SchedPipeline) = true ∧
    (schedulerTick (fun _ => some ⟨none⟩) 100
        [⟨1, "p", none, true, "STANDARD", 60, none⟩]).1 =
      [⟨1, "p", none, true, "STANDARD", 60, some 100⟩] := by
  have h := (c8_tick_due_and_single_publish (fun _ => some ⟨none⟩) 100
      [⟨1, "p", none, true, "STANDARD", 60, none⟩]).2.2.1
      ⟨1, "p", none, true, "STANDARD", 60, none⟩ (by rfl)
  exact ⟨h.1, by rw [h.2.2]; rfl⟩

/-- C2 counterexample: a bot with `daily_limit = 1` that already sent one
reply today (`used_today = 1`, within the limit) is refused by the guarded
user-reply path, but the planned-discussion send path
(`_send_due_discussion_replies` → `_update_bot_usage`) increments without any
limit check, leaving `used_today = 2 > daily_limit = 1` at the end of the
transaction.  So not every path that increments `used_today` keeps it within
`daily_limit`. -/
theorem c2_counterexample :
    (updateBotUsage ⟨['b'], 1, 1, 0, 0, 0, none⟩ 10 0).used_today ≤
      (updateBotUsage ⟨['b'], 1, 1, 0, 0, 0, none⟩ 10 0).daily_limit ∧
    (canUseBotForReply (updateBotUsage ⟨['b'], 1, 1, 0, 0, 0, none⟩ 10 0) 20 0).1
      = false ∧
    (updateBotUsage (updateBotUsage ⟨['b'], 1, 1, 0, 0, 0, none⟩ 10 0) 20
        0).daily_limit <
      (updateBotUsage (updateBotUsage ⟨['b'], 1, 1, 0, 0, 0, none⟩ 10 0) 20
        0).used_today := by
  decide

/-- C2 amended: only the user-reply send path is guarded — when
`_can_use_bot_for_reply` allows a send, the subsequent `_update_bot_usage`
keeps `used_today ≤ daily_limit`; `_update_bot_usage` itself always performs
the day-reset, increments by exactly one, stamps today's date and
`last_used_at = now`, with no limit check (so the unguarded
planned-discussion send path can exceed the cap). -/
theorem c2_guarded_path_keeps_cap (r : DiscussionBotWeight) (now : ℚ) (today : ℤ) :
    ((canUseBotForReply r now today).1 = true →
      (updateBotUsage r now today).used_today ≤
        (updateBotUsage r now today).daily_limit) ∧
    (updateBotUsage r now today).used_today =
      (resetIfNewDay r today).used_today + 1 ∧
    (updateBotUsage r now today).used_today_date = today ∧
    (updateBotUsage r now today).last_used_at = some now := by
  refine ⟨?_, rfl, ?_, rfl⟩
  · intro h
    by_cases hl : (resetIfNewDay r today).daily_limit ≤
        (resetIfNewDay r today).used_today
    · simp [canUseBotForReply, hl] at h
    · push_neg at hl
      show (resetIfNewDay r today).used_today + 1 ≤ (resetIfNewDay r today).daily_limit
      omega
  · by_cases hd : r.used_today_date = today
    · simp [updateBotUsage, resetIfNewDay, hd]
    · simp [updateBotUsage, resetIfNewDay, hd]

/-- C2 witness: a fresh bot (limit 2, unused) passes the guard and ends the
guarded send within its cap. -/
theorem c2_guarded_path_keeps_cap_witness :
    (canUseBotForReply ⟨['b'], 1, 2, 0, 0, 0, none⟩ 10 0).1 = true ∧
    (updateBotUsage ⟨['b'], 1, 2, 0, 0, 0, none⟩ 10 0).used_today ≤
      (updateBotUsage ⟨['b'], 1, 2, 0, 0, 0, none⟩ 10 0).daily_limit :=
  ⟨by decide, (c2_guarded_path_keeps_cap ⟨['b'], 1, 2, 0, 0, 0, none⟩ 10 0).1
    (by decide)⟩

/-- Helper: `getLastD` of a nonempty list is a member. -/
theorem getLastD_mem :
    ∀ (xs : List DiscussionBotWeight) (x d : DiscussionBotWeight),
      (x :: xs).getLastD d ∈ x :: xs := by
  intro xs
  induction xs with
  | nil => intro x d; simp [List.getLastD]
  | cons y ys ih =>
      intro x d
      rw [List.getLastD_cons]
      exact List.mem_cons_of_mem x (ih y x)

/-- Helper: the cumulative walk returns a member of the list. -/
theorem cumulativePick_mem (ew : Option (List Char → Option ℚ)) (pick : ℚ) :
    ∀ (bots : List DiscussionBotWeight) (cum : ℚ) (b : DiscussionBotWeight),
      cumulativePick ew pick cum bots = some b → b ∈ bots := by
  intro bots
  induction bots with
  | nil => intro cum b h; simp [cumulativePick] at h
  | cons x xs ih =>
      intro cum b h
      by_cases hc : pick ≤ cum + effWeight ew x
      · simp only [cumulativePick, hc, if_true, Option.some.injEq] at h
        exact h ▸ List.mem_cons_self x xs
      · simp only [cumulativePick, hc, if_false] at h
        exact List.mem_cons_of_mem x (ih _ b h)

/-- Helper: `_weighted_choice_with_map` returns a member of its input. -/
theorem weightedChoiceWithMap_mem (bots : List DiscussionBotWeight)
    (ew : Option (List Char → Option ℚ)) (pick : ℚ) (idx : ℕ) (h : bots ≠ []) :
    weightedChoiceWithMap bots ew pick idx ∈ bots := by
  unfold weightedChoiceWithMap
  by_cases ht : totalEffWeight ew bots ≤ 0
  · have hl : 0 < bots.length := List.length_pos.mpr h
    have hlt : idx % bots.length < bots.length := Nat.mod_lt _ hl
    simp only [ht, if_true]
    rw [List.getD_eq_getElem bots defaultBot hlt]
    exact List.getElem_mem hlt
  · simp only [ht, if_false]
    cases hc : cumulativePick ew pick 0 bots with
    | some b => exact cumulativePick_mem ew pick bots 0 b hc
    | none =>
        cases bots with
        | nil => exact absurd rfl h
        | cons x xs => exact getLastD_mem xs x defaultBot

/-- Helper: positive effective weights sum to a positive total. -/
theorem totalEffWeight_pos (ew : Option (List Char → Option ℚ))
    (bots : List DiscussionBotWeight) (h : bots ≠ [])
    (hpos : ∀ b ∈ bots, 0 < effWeight ew b) : 0 < totalEffWeight ew bots := by
  unfold totalEffWeight
  apply List.sum_pos
  · intro x hx
    obtain ⟨b, hb, rfl⟩ := List.mem_map.mp hx
    exact hpos b hb
  · simp [h]

/-- Helper: with a positive total, the code's weighted choice is exactly the
spec's weighted pick (and the rest is the list with the choice erased). -/
theorem specWeightedPick_eq (ew : Option (List Char → Option ℚ))
    (bots : List DiscussionBotWeight) (r : ℚ) (idx : ℕ)
    (hpos : 0 < totalEffWeight ew bots) :
    specWeightedPick ew bots r =
      some (weightedChoiceWithMap bots ew r idx,
        bots.erase (weightedChoiceWithMap bots ew r idx)) := by
  cases bots with
  | nil => simp [totalEffWeight] at hpos
  | cons x xs =>
      have ht : ¬ totalEffWeight ew (x :: xs) ≤ 0 := not_le.mpr hpos
      simp only [specWeightedPick, weightedChoiceWithMap, ht, if_false]

/-- Helper: stable insertion is a permutation of consing. -/
theorem insertByName_perm (b : DiscussionBotWeight) (l : List DiscussionBotWeight) :
    List.Perm (insertByName b l) (b :: l) := by
  induction l with
  | nil => simp [insertByName]
  | cons x xs ih =>
      by_cases hc : charListLe b.account_name x.account_name
      · simp [insertByName, hc]
      · simp only [insertByName, hc, if_false]
        exact (List.Perm.cons x ih).trans (List.Perm.swap b x xs)

/-- Helper: the stable name sort permutes its input. -/
theorem sortByName_perm (l : List DiscussionBotWeight) : List.Perm (sortByName l) l := by
  induction l with
  | nil => rfl
  | cons x xs ih =>
      exact (insertByName_perm x (sortByName xs)).trans (List.Perm.cons x ih)

/-- C1 counterexample: with five available bots `a..e` of equal effective
weight 1, the three-reply branch of `_select_discussion_bots` can only emit
the five cyclically-consecutive name triples (one per RNG start value) —
`{a, b, d}` is unreachable — while successive weighted picks without
replacement do reach `[a, b, d]` (e.g. with draws 1, 1, 2).  So for
`repliesCount = 3` the selection is not by successive weighted picks. -/
theorem c1_counterexample :
    ((List.range 5).map (fun start =>
        (selectDiscussionBots
            [⟨['a'], 1, 0, 0, 0, 0, none⟩, ⟨['b'], 1, 0, 0, 0, 0, none⟩,
             ⟨['c'], 1, 0, 0, 0, 0, none⟩, ⟨['d'], 1, 0, 0, 0, 0, none⟩,
             ⟨['e'], 1, 0, 0, 0, 0, none⟩] 3 (some (fun _ => some 1))
            ⟨0, 0, 0, 0, start⟩).map (fun b => b.account_name))) =
      [[['a'], ['b'], ['c']], [['b'], ['c'], ['d']], [['c'], ['d'], ['e']],
       [['d'], ['e'], ['a']], [['e'], ['a'], ['b']]] ∧
    Option.map (List.map (fun b => b.account_name))
        (specSelectBots (some (fun _ => some 1)) 3
          [⟨['a'], 1, 0, 0, 0, 0, none⟩, ⟨['b'], 1, 0, 0, 0, 0, none⟩,
           ⟨['c'], 1, 0, 0, 0, 0, none⟩, ⟨['d'], 1, 0, 0, 0, 0, none⟩,
           ⟨['e'], 1, 0, 0, 0, 0, none⟩] [1, 1, 2]) =
      some [['a'], ['b'], ['d']] := by
  constructor
  · decide
  · norm_num [specSelectBots, specWeightedPick, cumulativePick, effWeight,
      List.erase_cons]

/-- C1 amended: for `repliesCount ∈ {1, 2}` the code performs successive
weighted picks without replacement with the effective weights (no bot twice
when at least two bots are available); for `repliesCount = 3` the result is
independent of the weights (three cyclically-consecutive bots of the
name-sorted list) but still contains no bot twice when at least three bots
are available. -/
theorem c1_selection_weighted_for_counts_le_two
    (bots : List DiscussionBotWeight) (ew : Option (List Char → Option ℚ))
    (rng : SelectRng) (hpos : ∀ b ∈ bots, 0 < effWeight ew b)
    (hnd : bots.Nodup) :
    (bots ≠ [] →
      specSelectBots ew 1 bots [rng.pick1] =
        some (selectDiscussionBots bots 1 ew rng)) ∧
    (2 ≤ bots.length →
      specSelectBots ew 2 bots [rng.pick1, rng.pick2] =
          some (selectDiscussionBots bots 2 ew rng) ∧
        (selectDiscussionBots bots 2 ew rng).Nodup) ∧
    (∀ ew', selectDiscussionBots bots 3 ew rng = selectDiscussionBots bots 3 ew' rng) ∧
    (3 ≤ bots.length → (selectDiscussionBots bots 3 ew rng).Nodup) := by
  refine ⟨?_, ?_, ?_, ?_⟩
  · intro hne
    have hp1 := totalEffWeight_pos ew bots hne hpos
    have hpick := specWeightedPick_eq ew bots rng.pick1 rng.idx1 hp1
    simp [specSelectBots, hpick, selectDiscussionBots]
  · intro hlen
    have hne : bots ≠ [] := by
      intro h; rw [h] at hlen; simp at hlen
    have hp1 := totalEffWeight_pos ew bots hne hpos
    have hfmem : weightedChoiceWithMap bots ew rng.pick1 rng.idx1 ∈ bots :=
      weightedChoiceWithMap_mem bots ew rng.pick1 rng.idx1 hne
    set first := weightedChoiceWithMap bots ew rng.pick1 rng.idx1 with hf
    have herase : bots.erase first = bots.filter (fun b => b != first) :=
      hnd.erase_eq_filter first
    have hlenerase : (bots.erase first).length = bots.length - 1 :=
      List.length_erase_of_mem hfmem
    have hrne : bots.erase first ≠ [] := by
      intro h
      rw [h] at hlenerase
      simp at hlenerase
      omega
    have hpos' : ∀ b ∈ bots.erase first, 0 < effWeight ew b := fun b hb =>
      hpos b (List.mem_of_mem_erase hb)
    have hp2 := totalEffWeight_pos ew (bots.erase first) hrne hpos'
    have hpick1 := specWeightedPick_eq ew bots rng.pick1 rng.idx1 hp1
    have hpick2 := specWeightedPick_eq ew (bots.erase first) rng.pick2 rng.idx2 hp2
    have hsmem : weightedChoiceWithMap (bots.erase first) ew rng.pick2 rng.idx2 ∈
        bots.erase first :=
      weightedChoiceWithMap_mem (bots.erase first) ew rng.pick2 rng.idx2 hrne
    set second := weightedChoiceWithMap (bots.erase first) ew rng.pick2 rng.idx2
      with hs
    have hsne : second ≠ first := (List.Nodup.mem_erase_iff hnd).mp hsmem |>.1
    have hempty : (bots.erase first).isEmpty = false := by
      simpa [List.isEmpty_iff] using hrne
    have hsel0 : selectDiscussionBots bots 2 ew rng =
        [weightedChoiceWithMap bots ew rng.pick1 rng.idx1,
         if (bots.filter (fun b =>
              b != weightedChoiceWithMap bots ew rng.pick1 rng.idx1)).isEmpty
         then weightedChoiceWithMap bots ew rng.pick1 rng.idx1
         else weightedChoiceWithMap
           (bots.filter (fun b =>
              b != weightedChoiceWithMap bots ew rng.pick1 rng.idx1))
           ew rng.pick2 rng.idx2] := rfl
    have hsel : selectDiscussionBots bots 2 ew rng = [first, second] := by
      rw [hsel0, ← hf, ← herase, hempty, ← hs]
      simp
    refine ⟨?_, ?_⟩
    · rw [hsel]
      simp [specSelectBots, hpick1, hpick2, ← hs]
    · rw [hsel]
      simp [List.nodup_cons, Ne.symm hsne]
  · intro ew'
    rfl
  · intro hlen3
    have hlen' : (sortByName bots).length = bots.length :=
      (sortByName_perm bots).length_eq
    have hnd' : (sortByName bots).Nodup := ((sortByName_perm bots).nodup_iff).mpr hnd
    have hn : 0 < (sortByName bots).length := by omega
    have hsel : selectDiscussionBots bots 3 ew rng =
        [(sortByName bots).getD ((rng.start + 0) % (sortByName bots).length) defaultBot,
         (sortByName bots).getD ((rng.start + 1) % (sortByName bots).length) defaultBot,
         (sortByName bots).getD
           ((rng.start + 2) % (sortByName bots).length) defaultBot] := rfl
    have key : ∀ o1 o2 : ℕ, o1 < 3 → o2 < 3 → o1 ≠ o2 →
        (sortByName bots).getD ((rng.start + o1) % (sortByName bots).length)
            defaultBot ≠
          (sortByName bots).getD ((rng.start + o2) % (sortByName bots).length)
            defaultBot := by
      intro o1 o2 ho1 ho2 hne12 heq
      have hi1 : (rng.start + o1) % (sortByName bots).length <
          (sortByName bots).length := Nat.mod_lt _ hn
      have hi2 : (rng.start + o2) % (sortByName bots).length <
          (sortByName bots).length := Nat.mod_lt _ hn
      rw [List.getD_eq_getElem _ _ hi1, List.getD_eq_getElem _ _ hi2] at heq
      have hidx : (rng.start + o1) % (sortByName bots).length =
          (rng.start + o2) % (sortByName bots).length := by
        by_contra hdiff
        exact hdiff (List.Nodup.getElem_inj_iff hnd' |>.mp heq)
      have hmod : o1 % (sortByName bots).length = o2 % (sortByName bots).length :=
        Nat.ModEq.add_left_cancel' rng.start hidx
      rw [Nat.mod_eq_of_lt (by omega), Nat.mod_eq_of_lt (by omega)] at hmod
      exact hne12 hmod
    rw [hsel]
    refine List.nodup_cons.mpr ⟨?_, List.nodup_cons.mpr ⟨?_, List.nodup_singleton _⟩⟩
    · intro hmem
      rcases List.mem_cons.mp hmem with h | h
      · exact key 0 1 (by norm_num) (by norm_num) (by norm_num) h
      · exact key 0 2 (by norm_num) (by norm_num) (by norm_num) (by simpa using h)
    · intro hmem
      exact key 1 2 (by norm_num) (by norm_num) (by norm_num) (by simpa using hmem)

/-- C1 witness: two bots with weights 1 and 2, `repliesCount = 2` — the code
output equals the spec's successive weighted picks and contains no duplicate. -/
theorem c1_selection_weighted_for_counts_le_two_witness :
    specSelectBots none 2
        [⟨['a'], 1, 0, 0, 0, 0, none⟩, ⟨['b'], 2, 0, 0, 0, 0, none⟩]
        [(1 : ℚ), 1] =
      some (selectDiscussionBots
        [⟨['a'], 1, 0, 0, 0, 0, none⟩, ⟨['b'], 2, 0, 0, 0, 0, none⟩] 2 none
        ⟨1, 1, 0, 0, 0⟩) ∧
    (selectDiscussionBots
        [⟨['a'], 1, 0, 0, 0, 0, none⟩, ⟨['b'], 2, 0, 0, 0, 0, none⟩] 2 none
        ⟨1, 1, 0, 0, 0⟩).Nodup := by
  have h := c1_selection_weighted_for_counts_le_two
      [⟨['a'], 1, 0, 0, 0, 0, none⟩, ⟨['b'], 2, 0, 0, 0, 0, none⟩] none
      ⟨1, 1, 0, 0, 0⟩
      (by intro b hb; fin_cases hb <;> norm_num [effWeight])
      (by decide)
  exact h.2.1 (by norm_num)

/-- Helper: a closed run contributes exactly its characters. -/
theorem finishRun_chars (m : ℕ) (run : List Char) :
    (finishRun m run).chars = run.reverse := by
  unfold finishRun
  split <;> rfl

/-- Helper: `joinSegs` unfolds on cons. -/
theorem joinSegs_cons (seg : Seg) (ss : List Seg) :
    joinSegs (seg :: ss) = seg.chars ++ joinSegs ss := rfl

/-- Helper: characters of a gap segment. -/
theorem gap_chars (g : List Char) : (Seg.gap g).chars = g := rfl

/-- Helper: the segmentation reassembles to the original text. -/
theorem segsAux_join (m : ℕ) :
    ∀ (s run : List Char), joinSegs (segsAux m run s) = run.reverse ++ s := by
  intro s
  induction s with
  | nil =>
      intro run
      by_cases h : run.isEmpty
      · have : run = [] := List.isEmpty_iff.mp h
        subst this
        simp [segsAux, joinSegs]
      · simp [segsAux, joinSegs, h, finishRun_chars]
  | cons c rest ih =>
      intro run
      by_cases hc : isTokenChar c
      · have := ih (c :: run)
        simp only [segsAux, hc, if_true] at this ⊢
        simpa using this
      · by_cases hr : run.isEmpty
        · have : run = [] := List.isEmpty_iff.mp hr
          subst this
          simp [segsAux, hc, hr, joinSegs_cons, gap_chars, ih []]
        · simp [segsAux, hc, hr, joinSegs_cons, gap_chars, finishRun_chars, ih []]

/-- Helper: `_distort_word` only flips character case in place, so it
preserves length for every word and every RNG shuffle. -/
theorem distortWord_length (perm : List ℕ) (dmin dmax : ℕ) (w : List Char) :
    (distortWord perm dmin dmax w).length = w.length := by
  simp only [distortWord]
  split_ifs with h
  · rfl
  · simp

/-- Helper: rebuilding with a length-preserving distortion preserves the
length of the joined segments. -/
theorem applyBlackboxSegs_length (distort : ℕ → List Char → List Char)
    (sel : ℕ → Bool) (hd : ∀ i w, (distort i w).length = w.length) :
    ∀ (segs : List Seg) (i : ℕ),
      (applyBlackboxSegs distort sel i segs).length = (joinSegs segs).length := by
  intro segs
  induction segs with
  | nil => intro i; rfl
  | cons s ss ih =>
      intro i
      cases s with
      | gap g => simp [applyBlackboxSegs, joinSegs_cons, gap_chars, ih i]
      | word w =>
          by_cases hs : sel i
          · simp [applyBlackboxSegs, joinSegs_cons, Seg.chars, hs, hd, ih (i + 1)]
          · simp [applyBlackboxSegs, joinSegs_cons, Seg.chars, hs, ih (i + 1)]

/-- C9: blackbox visual distortion preserves string length exactly, for every
text, every `(ratio, min_word_len, distort_min, distort_max)` and every RNG
behaviour (shuffle order and per-word position shuffles) — the transformation
only flips the case of letters inside selected words. -/
theorem c9_blackbox_preserves_length (text : List Char) (ratio : ℚ)
    (minWordLen distortMin distortMax : ℕ) (order : List ℕ)
    (perms : ℕ → List ℕ) :
    (applyBlackboxEffect text ratio minWordLen distortMin distortMax order
        perms).length = text.length := by
  have hjoin : joinSegs (segsAux (max minWordLen 1) [] text) = text := by
    simpa using segsAux_join (max minWordLen 1) text []
  simp only [applyBlackboxEffect]
  split
  · rfl
  · split
    · rfl
    · rw [applyBlackboxSegs_length
        (fun i w => distortWord (perms i) distortMin distortMax w) _
        (fun i w => distortWord_length (perms i) distortMin distortMax w),
        hjoin]

/-- Helper: the preservation step keeps the newest candidate present. -/
theorem preserveNewest_mem (nc : PostCandidate) (filtered : List PostCandidate) :
    nc ∈ preserveNewest (some nc) filtered := by
  by_cases h : nc ∈ filtered
  · simp [preserveNewest, h]
  · simp [preserveNewest, h]

/-- Helper: everything the preservation step returns is the newest candidate
or came from the filtered list. -/
theorem preserveNewest_subset (nc : PostCandidate)
    (filtered : List PostCandidate) (x : PostCandidate)
    (hx : x ∈ preserveNewest (some nc) filtered) : x = nc ∨ x ∈ filtered := by
  by_cases h : nc ∈ filtered
  · have heq : preserveNewest (some nc) filtered = filtered := by
      simp [preserveNewest, h]
    rw [heq] at hx
    exact Or.inr hx
  · have heq : preserveNewest (some nc) filtered =
        nc :: filtered.filter (fun c => c != nc) := by
      simp [preserveNewest, h]
    rw [heq] at hx
    rcases List.mem_cons.mp hx with hx | hx
    · exact Or.inl hx
    · exact Or.inr (List.mem_of_mem_filter hx)

/-- Helper: one anti-repeat filter block keeps the newest candidate, and
everything it keeps either is the newest or genuinely passed the filter (or
the block was disabled by its flag). -/
theorem filterStage_spec (nc : PostCandidate) (l : List PostCandidate)
    (p : PostCandidate → Bool) (flag : Bool) (hin : nc ∈ l) :
    nc ∈ filterStage (some nc) flag p l ∧
    ∀ x ∈ filterStage (some nc) flag p l,
      x ∈ l ∧ (x = nc ∨ p x = false ∨ flag = false) := by
  unfold filterStage
  by_cases hcond : (flag && decide (l.length > 1)) = true
  · simp only [hcond, if_true]
    refine ⟨preserveNewest_mem nc _, ?_⟩
    intro x hx
    rcases preserveNewest_subset nc _ x hx with hx' | hx'
    · exact ⟨hx' ▸ hin, Or.inl hx'⟩
    · refine ⟨List.mem_of_mem_filter hx', Or.inr (Or.inl ?_)⟩
      have := List.of_mem_filter hx'
      simpa using this
  · simp only [hcond, if_false]
    refine ⟨hin, ?_⟩
    intro x hx
    refine ⟨hx, ?_⟩
    cases hf : flag with
    | false => exact Or.inr (Or.inr rfl)
    | true =>
        have hlen : ¬ l.length > 1 := by
          intro hgt
          exact hcond (by simp [hf, hgt])
        left
        cases l with
        | nil => cases hin
        | cons a t =>
            cases t with
            | nil =>
                have hxa : x = a := by simpa using hx
                have hna : nc = a := by simpa using hin
                rw [hxa, hna]
            | cons b u => simp at hlen

/-- C3: for every (post-`last_source_post_id`) candidate list whose newest
element is `nc`, the newest candidate survives all three anti-repeat filters
(so the filtered result is nonempty), and every other survivor has no
recent-topic overlap, a fingerprint outside the ring, and is not BM25-similar
(whenever the BM25 window is enabled). -/
theorem c3_newest_candidate_survives (recentTopics : List (List Char))
    (topicsOf : List Char → List (List Char)) (seenFps : List (List Char))
    (fpOf : List Char → List Char) (bm25Window : ℤ)
    (bm25Sim : List Char → Bool) (candidates : List PostCandidate)
    (nc : PostCandidate) (hhead : candidates.head? = some nc) :
    nc ∈ discussionAntiRepeatFilter recentTopics topicsOf seenFps fpOf
        bm25Window bm25Sim candidates ∧
    discussionAntiRepeatFilter recentTopics topicsOf seenFps fpOf bm25Window
        bm25Sim candidates ≠ [] ∧
    ∀ x ∈ discussionAntiRepeatFilter recentTopics topicsOf seenFps fpOf
        bm25Window bm25Sim candidates,
      x = nc ∨
        (topicHit recentTopics topicsOf x = false ∧
          seenFps.contains (fpOf x.text) = false ∧
          (0 < bm25Window → bm25Sim x.text = false)) := by
  have hin : nc ∈ candidates := by
    cases candidates with
    | nil => simp at hhead
    | cons a t =>
        have : a = nc := by simpa using hhead
        exact this ▸ List.mem_cons_self a t
  have h1 := filterStage_spec nc candidates
    (fun c => topicHit recentTopics topicsOf c) (!recentTopics.isEmpty) hin
  have h2 := filterStage_spec nc _
    (fun c => seenFps.contains (fpOf c.text)) (!seenFps.isEmpty) h1.1
  have h3 := filterStage_spec nc _
    (fun c => bm25Sim c.text) (decide (0 < bm25Window)) h2.1
  have hres : discussionAntiRepeatFilter recentTopics topicsOf seenFps fpOf
      bm25Window bm25Sim candidates =
      filterStage candidates.head? (decide (0 < bm25Window))
        (fun c => bm25Sim c.text)
        (filterStage candidates.head? (!seenFps.isEmpty)
          (fun c => seenFps.contains (fpOf c.text))
          (filterStage candidates.head? (!recentTopics.isEmpty)
            (fun c => topicHit recentTopics topicsOf c) candidates)) := rfl
  rw [hres, hhead]
  refine ⟨h3.1, List.ne_nil_of_mem h3.1, ?_⟩
  intro x hx
  obtain ⟨hx2, hcl3⟩ := h3.2 x hx
  obtain ⟨hx1, hcl2⟩ := h2.2 x hx2
  obtain ⟨hx0, hcl1⟩ := h1.2 x hx1
  by_cases hxnc : x = nc
  · exact Or.inl hxnc
  · right
    refine ⟨?_, ?_, ?_⟩
    · rcases hcl1 with h | h | h
      · exact absurd h hxnc
      · exact h
      · have : recentTopics = [] := by
          simpa [List.isEmpty_iff] using h
        simp [topicHit, this]
    · rcases hcl2 with h | h | h
      · exact absurd h hxnc
      · exact h
      · have : seenFps = [] := by
          simpa [List.isEmpty_iff] using h
        simp [this]
    · intro hw
      rcases hcl3 with h | h | h
      · exact absurd h hxnc
      · exact h
      · simp at h
        exact absurd hw (by simpa using h)

/-- C3 witness: a two-candidate list whose newest element's fingerprint is in
the ring still keeps the newest candidate, and the other (also ring-matched)
candidate is removed. -/
theorem c3_newest_candidate_survives_witness :
    (⟨2, ['n'], 0⟩ : PostCandidate) ∈ discussionAntiRepeatFilter []
        (fun _ => []) [['f']] (fun _ => ['f']) 0 (fun _ => false)
        [⟨2, ['n'], 0⟩, ⟨1, ['o'], 0⟩] ∧
    discussionAntiRepeatFilter [] (fun _ => []) [['f']] (fun _ => ['f']) 0
        (fun _ => false) [⟨2, ['n'], 0⟩, ⟨1, ['o'], 0⟩] ≠ [] :=
  have h := c3_newest_candidate_survives [] (fun _ => []) [['f']]
    (fun _ => ['f']) 0 (fun _ => false) [⟨2, ['n'], 0⟩, ⟨1, ['o'], 0⟩]
    ⟨2, ['n'], 0⟩ rfl
  ⟨h.1, h.2.1⟩

/-- An 80-character text ending in the male form "уверен" (with 37 copies of
"x " in front). -/
def c4_text : List Char := (List.replicate 37 ['x', ' ']).flatten ++ "уверен".toList

set_option maxRecDepth 4000 in
/-- C4 counterexample: fixing `c4_text` for `female` lengthens the text to 81
characters ("уверен" → "уверена"); the second application splits the new text
at 80 characters again, re-exposing "уверен" at the end of the prefix and
appending another "а" — so applying the fix twice differs from applying it
once. -/
theorem c4_counterexample :
    (fixGenderGrammar (fixGenderGrammar c4_text "female").1 "female").1 ≠
      (fixGenderGrammar c4_text "female").1 := by
  decide

/-- C4 amended: for a gender outside {male, female} the text is returned
unchanged with `changed = False`, and for every input only the first 80
characters are rewritten — the remainder of the string is reattached
unchanged.  (Idempotence fails: see the counterexample.) -/
theorem c4_gender_fix_invalid_noop_and_prefix_only (text : List Char)
    (gender : String) :
    ((gender ≠ "male" ∧ gender ≠ "female") →
      fixGenderGrammar text gender = (text, false)) ∧
    (∃ p, (fixGenderGrammar text gender).1 = p ++ text.drop 80) := by
  constructor
  · rintro ⟨h1, h2⟩
    unfold fixGenderGrammar
    by_cases he : (text.isEmpty || (pyStrip text).isEmpty) = true
    · simp [he]
    · simp [he, h1, h2]
  · by_cases he : (text.isEmpty || (pyStrip text).isEmpty) = true
    · refine ⟨text.take 80, ?_⟩
      simp only [fixGenderGrammar, he, if_true]
      exact (List.take_append_drop 80 text).symm
    · by_cases hg : gender = "male" ∨ gender = "female"
      · refine ⟨applyReplacements
          (if gender = "female" then FEMALE_REPLACEMENTS else MALE_REPLACEMENTS)
          (text.take 80), ?_⟩
        simp [fixGenderGrammar, he, hg]
      · refine ⟨text.take 80, ?_⟩
        simp only [fixGenderGrammar, he, Bool.false_eq_true, if_false, hg]
        exact (List.take_append_drop 80 text).symm

/-- C4 witness: `fix_gender_grammar("согласна", "unknown")` is a no-op with
`changed = False`. -/
theorem c4_gender_fix_invalid_noop_and_prefix_only_witness :
    fixGenderGrammar "согласна".toList "unknown" = ("согласна".toList, false) :=
  (c4_gender_fix_invalid_noop_and_prefix_only "согласна".toList "unknown").1
    (by decide)

/-- A text that normalizes to 800 characters ending in a space: 799 copies of
`a` (97), one space, five copies of `b` (98). -/
def c5_text : List ℕ := List.replicate 799 97 ++ 32 :: List.replicate 5 98

set_option maxRecDepth 100000 in
/-- C5 counterexample: `c5_text` normalizes to `799 × a` followed by a single
space (the 800-character truncation cuts right after the space), and a second
normalization strips that trailing space — so normalizing twice differs from
normalizing once, and the claimed idempotence fails. -/
theorem c5_counterexample :
    normalizeTextForFingerprint (normalizeTextForFingerprint c5_text) ≠
      normalizeTextForFingerprint c5_text := by
  decide

/-! #### Scanner basics for the normalization proof -/

/-- Helper: a successful literal strip means the string is literal ++ rest. -/
theorem dropLitN_some_iff :
    ∀ (p s t : List ℕ), dropLitN p s = some t ↔ s = p ++ t := by
  intro p
  induction p with
  | nil =>
      intro s t
      simp [dropLitN]
  | cons a ps ih =>
      intro s t
      cases s with
      | nil => simp [dropLitN]
      | cons c cs =>
          by_cases hc : c = a
          · subst hc
            simp [dropLitN, ih]
          · simp [dropLitN, hc, Ne.symm hc]

/-- Helper: a found literal prefix is one of the literals, and a prefix. -/
theorem protoPrefixLen_spec :
    ∀ (ps : List (List ℕ)) (s : List ℕ) (k : ℕ),
      protoPrefixLen ps s = some k →
      ∃ p ∈ ps, p.IsPrefix s ∧ k = p.length := by
  intro ps
  induction ps with
  | nil => intro s k h; simp [protoPrefixLen] at h
  | cons p rest ih =>
      intro s k h
      cases hd : dropLitN p s with
      | some t =>
          simp only [protoPrefixLen, hd, Option.some.injEq] at h
          refine ⟨p, List.mem_cons_self p rest, ⟨t, ?_⟩, h.symm⟩
          exact ((dropLitN_some_iff p s t).mp hd).symm
      | none =>
          simp only [protoPrefixLen, hd] at h
          obtain ⟨q, hq, hpre, hk⟩ := ih s k h
          exact ⟨q, List.mem_cons_of_mem p hq, hpre, hk⟩

/-- Helper: if some literal is a prefix, the search succeeds. -/
theorem protoPrefixLen_isSome :
    ∀ (ps : List (List ℕ)) (s : List ℕ) (p : List ℕ),
      p ∈ ps → p.IsPrefix s → ∃ k, protoPrefixLen ps s = some k := by
  intro ps
  induction ps with
  | nil => intro s p h; simp at h
  | cons q rest ih =>
      intro s p hmem hpre
      cases hd : dropLitN q s with
      | some t => exact ⟨q.length, by simp [protoPrefixLen, hd]⟩
      | none =>
          rcases List.mem_cons.mp hmem with h | h
          · subst h
            obtain ⟨t, ht⟩ := hpre
            rw [(dropLitN_some_iff p s t).mpr ht.symm] at hd
            cases hd
          · obtain ⟨k, hk⟩ := ih s p h hpre
            exact ⟨k, by simp [protoPrefixLen, hd, hk]⟩

/-- No literal of the matcher is a prefix of another (regex alternatives are
mutually exclusive). -/
def ProtosExclusive (M : RunMatcher) : Prop :=
  ∀ p₁ ∈ M.protos, ∀ p₂ ∈ M.protos, p₁.IsPrefix p₂ → p₁ = p₂

/-- Helper: under exclusivity the found literal length is determined by any
literal that matches. -/
theorem protoPrefixLen_unique (M : RunMatcher) (hexcl : ProtosExclusive M)
    (s : List ℕ) (k : ℕ) (h : protoPrefixLen M.protos s = some k)
    (p : List ℕ) (hp : p ∈ M.protos) (hpre : p.IsPrefix s) : k = p.length := by
  obtain ⟨q, hq, hqpre, hk⟩ := protoPrefixLen_spec M.protos s k h
  rcases le_total q.length p.length with hle | hle
  · have : q.IsPrefix p := List.prefix_of_prefix_length_le hqpre hpre hle
    rw [hk, hexcl q hq p hp this]
  · have : p.IsPrefix q := List.prefix_of_prefix_length_le hpre hqpre hle
    rw [hk, hexcl p hp q hq this]

/-- Helper: a match consumes at least one and at most all characters. -/
theorem runMatchLen_bounds (M : RunMatcher) (s : List ℕ) (m : ℕ)
    (h : runMatchLen M s = some m) : 1 ≤ m ∧ m ≤ s.length := by
  unfold runMatchLen at h
  cases hp : protoPrefixLen M.protos s with
  | none => simp [hp] at h
  | some k =>
      simp only [hp] at h
      by_cases hrun : ((s.drop k).takeWhile M.runPred).isEmpty
      · simp [hrun] at h
      · simp only [hrun, Bool.false_eq_true, if_false, Option.some.injEq] at h
        obtain ⟨p, _, hpre, hk⟩ := protoPrefixLen_spec M.protos s k hp
        have hklen : k ≤ s.length := hk ▸ hpre.length_le
        have htw : ((s.drop k).takeWhile M.runPred).length ≤ (s.drop k).length :=
          (List.takeWhile_prefix _).length_le
        have hrunpos : 1 ≤ ((s.drop k).takeWhile M.runPred).length := by
          cases hw : (s.drop k).takeWhile M.runPred with
          | nil => rw [hw] at hrun; simp at hrun
          | cons a l => simp [hw]
        rw [← h]
        constructor
        · omega
        · have := s.length_drop k
          omega

/-- Helper: the fuel argument is irrelevant once it covers the length. -/
theorem scanSubF_fuel (M : RunMatcher) (r : ℕ) :
    ∀ (fuel₁ fuel₂ : ℕ) (s : List ℕ), s.length ≤ fuel₁ → s.length ≤ fuel₂ →
      scanSubF M r fuel₁ s = scanSubF M r fuel₂ s := by
  intro fuel₁
  induction fuel₁ with
  | zero =>
      intro fuel₂ s h1 h2
      have : s = [] := List.eq_nil_of_length_eq_zero (by omega)
      subst this
      cases fuel₂ <;> rfl
  | succ f ih =>
      intro fuel₂ s h1 h2
      cases s with
      | nil => cases fuel₂ <;> rfl
      | cons c rest =>
          cases fuel₂ with
          | zero => simp at h2
          | succ f₂ =>
              simp only [scanSubF]
              cases hm : runMatchLen M (c :: rest) with
              | some m =>
                  cases m with
                  | zero => simp [ih f₂ rest (by simp at h1; omega) (by simp at h2; omega)]
                  | succ n =>
                      have hb := runMatchLen_bounds M (c :: rest) (n + 1) hm
                      simp only []
                      have hlen : (rest.drop n).length ≤ f ∧ (rest.drop n).length ≤ f₂ := by
                        simp only [List.length_cons] at h1 h2 hb
                        have := rest.length_drop n
                        constructor <;> omega
                      rw [ih f₂ (rest.drop n) hlen.1 hlen.2]
              | none =>
                  simp only []
                  rw [ih f₂ rest (by simp at h1; omega) (by simp at h2; omega)]

/-- Helper: scanner step when nothing matches at the head. -/
theorem scanSub_cons_none (M : RunMatcher) (r : ℕ) (c : ℕ) (rest : List ℕ)
    (h : runMatchLen M (c :: rest) = none) :
    scanSub M r (c :: rest) = c :: scanSub M r rest := by
  unfold scanSub
  simp only [List.length_cons, scanSubF, h]

/-- Helper: scanner step at a match: one replacement character, then continue
after the matched span. -/
theorem scanSub_cons_match (M : RunMatcher) (r : ℕ) (c : ℕ) (rest : List ℕ)
    (n : ℕ) (h : runMatchLen M (c :: rest) = some (n + 1)) :
    scanSub M r (c :: rest) = r :: scanSub M r (rest.drop n) := by
  unfold scanSub
  simp only [List.length_cons, scanSubF, h]
  have hb := runMatchLen_bounds M (c :: rest) (n + 1) h
  simp only [List.length_cons] at hb
  have h1 : (rest.drop n).length ≤ rest.length := by
    have := rest.length_drop n
    omega
  rw [scanSubF_fuel M r rest.length (rest.drop n).length (rest.drop n) h1 le_rfl]

/-- No suffix of `s` matches the pattern. -/
def MatchFree (M : RunMatcher) (s : List ℕ) : Prop :=
  ∀ i, runMatchLen M (s.drop i) = none

/-- Every match in `s` is a single isolated occurrence of the replacement
character `r` (so substituting is the identity). -/
def IsolatedOk (M : RunMatcher) (r : ℕ) (s : List ℕ) : Prop :=
  ∀ i, runMatchLen M (s.drop i) = none ∨
    (runMatchLen M (s.drop i) = some 1 ∧ (s.drop i).head? = some r)

/-- Helper: the empty string never matches. -/
theorem runMatchLen_nil (M : RunMatcher) : runMatchLen M [] = none := by
  unfold runMatchLen
  cases hp : protoPrefixLen M.protos [] with
  | none => simp
  | some k => simp

/-- Helper: a match yields a literal-prefix length and a first run character
satisfying the run predicate. -/
theorem runMatchLen_some_spec (M : RunMatcher) (s : List ℕ) (m : ℕ)
    (h : runMatchLen M s = some m) :
    ∃ k, protoPrefixLen M.protos s = some k ∧
      ∃ d l, s.drop k = d :: l ∧ M.runPred d = true ∧
        m = k + ((s.drop k).takeWhile M.runPred).length := by
  unfold runMatchLen at h
  cases hp : protoPrefixLen M.protos s with
  | none => simp [hp] at h
  | some k =>
      simp only [hp] at h
      by_cases hrun : ((s.drop k).takeWhile M.runPred).isEmpty
      · simp [hrun] at h
      · simp only [hrun, Bool.false_eq_true, if_false, Option.some.injEq] at h
        cases hd : s.drop k with
        | nil => rw [hd] at hrun; simp [List.takeWhile] at hrun
        | cons d l =>
            refine ⟨k, rfl, d, l, hd, ?_, h.symm⟩
            rw [hd] at hrun
            by_cases hpred : M.runPred d = true
            · exact hpred
            · simp [List.takeWhile_cons, hpred] at hrun

/-- Helper: conversely, a literal prefix followed by a run character is a
match. -/
theorem runMatchLen_isSome (M : RunMatcher) (s : List ℕ) (k : ℕ)
    (hp : protoPrefixLen M.protos s = some k) (d : ℕ) (l : List ℕ)
    (hd : s.drop k = d :: l) (hpred : M.runPred d = true) :
    runMatchLen M s = some (k + ((s.drop k).takeWhile M.runPred).length) := by
  unfold runMatchLen
  rw [hp]
  have : ¬ ((s.drop k).takeWhile M.runPred).isEmpty := by
    rw [hd]
    simp [List.takeWhile_cons, hpred]
  simp [this]

/-- Helper: prefixes of equal-or-larger strings keep the head. -/
theorem head?_of_prefix (l s : List ℕ) (h : l.IsPrefix s) (hne : l ≠ []) :
    l.head? = s.head? := by
  obtain ⟨t, rfl⟩ := h
  cases l with
  | nil => exact absurd rfl hne
  | cons a l' => rfl

/-- Helper: dropping preserves the prefix relation. -/
theorem prefix_drop (l s : List ℕ) (h : l.IsPrefix s) (i : ℕ) :
    (l.drop i).IsPrefix (s.drop i) := by
  obtain ⟨t, rfl⟩ := h
  rw [List.drop_append_eq_append_drop]
  exact ⟨t.drop (i - l.length), rfl⟩

/-- Helper: `takeWhile` of a prefix is a prefix of `takeWhile`. -/
theorem takeWhile_prefix_mono (p : ℕ → Bool) :
    ∀ (l s : List ℕ), l.IsPrefix s → (l.takeWhile p).IsPrefix (s.takeWhile p) := by
  intro l
  induction l with
  | nil => intro s h; simp
  | cons a l' ih =>
      intro s h
      obtain ⟨t, rfl⟩ := h
      by_cases hp : p a = true
      · simp only [List.cons_append, List.takeWhile_cons, hp, if_true]
        obtain ⟨u, hu⟩ := ih (l' ++ t) ⟨t, rfl⟩
        exact ⟨u, by rw [List.cons_append, hu]⟩
      · simp [List.takeWhile_cons, hp]

/-- Helper: if a string has no match, neither has any of its prefixes. -/
theorem runMatchLen_none_of_prefix (M : RunMatcher) (hexcl : ProtosExclusive M)
    (l s : List ℕ) (hpre : l.IsPrefix s) (h : runMatchLen M s = none) :
    runMatchLen M l = none := by
  cases hl : runMatchLen M l with
  | none => rfl
  | some m =>
      exfalso
      obtain ⟨k, hp, d, tl, hd, hpred, _⟩ := runMatchLen_some_spec M l m hl
      obtain ⟨q, hq, hqpre, hk⟩ := protoPrefixLen_spec M.protos l k hp
      have hqs : q.IsPrefix s := hqpre.trans hpre
      obtain ⟨k', hk'⟩ := protoPrefixLen_isSome M.protos s q hq hqs
      have hk'' : k' = q.length := protoPrefixLen_unique M hexcl s k' hk' q hq hqs
      have hdrop : (l.drop k).IsPrefix (s.drop k) := prefix_drop l s hpre k
      have hhead : (s.drop k).head? = some d := by
        rw [← head?_of_prefix (l.drop k) (s.drop k) hdrop (by rw [hd]; simp), hd]
        rfl
      cases hsd : s.drop k with
      | nil => rw [hsd] at hhead; cases hhead
      | cons d' tl' =>
          rw [hsd] at hhead
          have hdd : d' = d := by simpa using hhead
          subst hdd
          have := runMatchLen_isSome M s k (by rw [hk', hk'', ← hk]) d' tl' hsd hpred
          rw [h] at this
          cases this

/-- Helper: a match-free string stays match-free on suffixes. -/
theorem matchFree_drop (M : RunMatcher) (s : List ℕ) (h : MatchFree M s)
    (j : ℕ) : MatchFree M (s.drop j) := by
  intro i
  rw [List.drop_drop]
  exact h (j + i)

/-- Helper: a match-free string stays match-free on prefixes. -/
theorem matchFree_of_prefix (M : RunMatcher) (hexcl : ProtosExclusive M)
    (l s : List ℕ) (hpre : l.IsPrefix s) (h : MatchFree M s) : MatchFree M l :=
  fun i => runMatchLen_none_of_prefix M hexcl (l.drop i) (s.drop i)
    (prefix_drop l s hpre i) (h i)

/-- Helper: isolation is preserved on suffixes. -/
theorem isolated_drop (M : RunMatcher) (r : ℕ) (s : List ℕ)
    (h : IsolatedOk M r s) (j : ℕ) : IsolatedOk M r (s.drop j) := by
  intro i
  rw [List.drop_drop]
  exact h (j + i)

/-- Helper: dropping the matched run reaches `dropWhile`. -/
theorem drop_takeWhile_length (p : ℕ → Bool) :
    ∀ (l : List ℕ), l.drop ((l.takeWhile p).length) = l.dropWhile p := by
  intro l
  induction l with
  | nil => rfl
  | cons a t ih =>
      by_cases hp : p a = true
      · simpa [List.takeWhile_cons, List.dropWhile_cons, hp] using ih
      · simp [List.takeWhile_cons, List.dropWhile_cons, hp]

/-- Helper: the head of `dropWhile` fails the predicate. -/
theorem head_dropWhile_not (p : ℕ → Bool) :
    ∀ (l : List ℕ) (d : ℕ) (t : List ℕ), l.dropWhile p = d :: t → p d = false := by
  intro l
  induction l with
  | nil => intro d t h; cases h
  | cons a l' ih =>
      intro d t h
      by_cases hp : p a = true
      · rw [List.dropWhile_cons_of_pos hp] at h
        exact ih d t h
      · rw [List.dropWhile_cons_of_neg hp] at h
        cases h
        simpa using hp

/-- Helper: the empty literal always matches with length 0. -/
theorem ep_protoPrefixLen (s : List ℕ) : protoPrefixLen [[]] s = some 0 := by
  simp [protoPrefixLen, dropLitN]

/-- Helper: an empty-literal matcher has exclusive literals. -/
theorem ep_exclusive (M : RunMatcher) (hM : M.protos = [[]]) :
    ProtosExclusive M := by
  intro p₁ h₁ p₂ h₂ _
  rw [hM] at h₁ h₂
  simp at h₁ h₂
  rw [h₁, h₂]

/-- Helper: for an empty-literal matcher, no match at a head failing the run
predicate. -/
theorem ep_none (M : RunMatcher) (hM : M.protos = [[]]) (c : ℕ) (l : List ℕ)
    (hp : M.runPred c = false) : runMatchLen M (c :: l) = none := by
  unfold runMatchLen
  rw [hM, ep_protoPrefixLen]
  simp [List.takeWhile_cons, hp]

/-- Helper: for an empty-literal matcher, a head satisfying the run predicate
matches with the run length. -/
theorem ep_some (M : RunMatcher) (hM : M.protos = [[]]) (c : ℕ) (l : List ℕ)
    (hp : M.runPred c = true) :
    runMatchLen M (c :: l) = some (((c :: l).takeWhile M.runPred).length) := by
  unfold runMatchLen
  rw [hM, ep_protoPrefixLen]
  simp [List.takeWhile_cons, hp]

/-- Helper: isolation transfers to prefixes (empty-literal matchers). -/
theorem isolated_of_prefix (M : RunMatcher) (hM : M.protos = [[]]) (r : ℕ)
    (l s : List ℕ) (hpre : l.IsPrefix s) (h : IsolatedOk M r s) :
    IsolatedOk M r l := by
  intro i
  have hdp : (l.drop i).IsPrefix (s.drop i) := prefix_drop l s hpre i
  cases hld : l.drop i with
  | nil => left; exact runMatchLen_nil M
  | cons c t =>
      rw [hld] at hdp
      cases hsd : s.drop i with
      | nil =>
          rw [hsd] at hdp
          exact absurd (List.prefix_nil.mp hdp) (by simp)
      | cons c2 t2 =>
          rw [hsd] at hdp
          obtain ⟨hc2, ht2⟩ := List.cons_prefix_cons.mp hdp
          rcases h i with hnone | ⟨hsome, hhead⟩
          · left
            rw [hsd] at hnone
            exact runMatchLen_none_of_prefix M (ep_exclusive M hM) (c :: t)
              (c2 :: t2) hdp hnone
          · rw [hsd] at hsome hhead
            have hc2r : c2 = r := by simpa using hhead
            by_cases hp : M.runPred c = true
            · right
              have hpc2 : M.runPred c2 = true := by rw [← hc2]; exact hp
              rw [ep_some M hM c2 t2 hpc2] at hsome
              have hlen1 : ((c2 :: t2).takeWhile M.runPred).length = 1 := by
                simpa using hsome
              have htw2 : t2.takeWhile M.runPred = [] := by
                simp only [List.takeWhile_cons, hpc2, if_true, List.length_cons] at hlen1
                exact List.eq_nil_of_length_eq_zero (by omega)
              have htwt : t.takeWhile M.runPred = [] := by
                have hmono := takeWhile_prefix_mono M.runPred t t2 ht2
                rw [htw2] at hmono
                exact List.prefix_nil.mp hmono
              constructor
              · rw [ep_some M hM c t hp]
                simp [List.takeWhile_cons, hp, htwt]
              · show (c :: t).head? = some r
                rw [List.head?_cons, hc2, hc2r]
            · left
              exact ep_none M hM c t (by simpa using hp)

/-- Helper: when every match is an isolated replacement character,
substitution is the identity. -/
theorem scanSub_id_of_isolated (M : RunMatcher) (r : ℕ) :
    ∀ (s : List ℕ), IsolatedOk M r s → scanSub M r s = s
  | [], _ => rfl
  | c :: rest, h => by
      rcases h 0 with hnone | ⟨hsome, hhead⟩
      · rw [scanSub_cons_none M r c rest hnone]
        rw [scanSub_id_of_isolated M r rest (fun i => h (i + 1))]
      · have h1 : runMatchLen M (c :: rest) = some (0 + 1) := hsome
        rw [scanSub_cons_match M r c rest 0 h1]
        have hc : c = r := by simpa using hhead
        rw [List.drop_zero, scanSub_id_of_isolated M r rest (fun i => h (i + 1)), hc]

/-- Helper: the output of an empty-literal scanner is isolated: every
remaining run-predicate character is a lone replacement character. -/
theorem ep_isolated_scanSub (M : RunMatcher) (r : ℕ) (hM : M.protos = [[]])
    (hr : M.runPred r = true) :
    ∀ (s : List ℕ), IsolatedOk M r (scanSub M r s)
  | [] => by
      intro i
      left
      show runMatchLen M ((scanSub M r []).drop i) = none
      simp [scanSub, scanSubF, runMatchLen_nil]
  | c :: rest => by
      by_cases hp : M.runPred c = true
      · have hsome := ep_some M hM c rest hp
        have hL1 : 1 ≤ ((c :: rest).takeWhile M.runPred).length := by
          simp [List.takeWhile_cons, hp]
        obtain ⟨n, hn⟩ : ∃ n, ((c :: rest).takeWhile M.runPred).length = n + 1 :=
          ⟨((c :: rest).takeWhile M.runPred).length - 1, by omega⟩
        rw [hn] at hsome
        rw [scanSub_cons_match M r c rest n hsome]
        have hdw : rest.drop n = (c :: rest).dropWhile M.runPred := by
          have h1 : rest.drop n = (c :: rest).drop (n + 1) := rfl
          rw [h1, ← hn, drop_takeWhile_length]
        have hout : ∀ d t, scanSub M r (rest.drop n) = d :: t → M.runPred d = false := by
          intro d t hdt
          cases hrd : rest.drop n with
          | nil => rw [hrd] at hdt; simp [scanSub, scanSubF] at hdt
          | cons d0 t0 =>
              have hd0 : M.runPred d0 = false := by
                apply head_dropWhile_not M.runPred (c :: rest) d0 t0
                rw [← hdw, hrd]
              rw [hrd, scanSub_cons_none M r d0 t0 (ep_none M hM d0 t0 hd0)] at hdt
              have : d0 = d := by simpa using congrArg List.head? hdt
              rw [← this]
              exact hd0
        intro i
        cases i with
        | zero =>
            right
            have htw0 : (scanSub M r (rest.drop n)).takeWhile M.runPred = [] := by
              cases hout2 : scanSub M r (rest.drop n) with
              | nil => rfl
              | cons d t =>
                  rw [List.takeWhile_cons, hout d t hout2]
                  simp
            constructor
            · show runMatchLen M (r :: scanSub M r (rest.drop n)) = some 1
              rw [ep_some M hM _ _ hr]
              simp [List.takeWhile_cons, hr, htw0]
            · rfl
        | succ i =>
            exact ep_isolated_scanSub M r hM hr (rest.drop n) i
      · have hp' : M.runPred c = false := by simpa using hp
        rw [scanSub_cons_none M r c rest (ep_none M hM c rest hp')]
        intro i
        cases i with
        | zero =>
            left
            exact ep_none M hM c _ hp'
        | succ i =>
            exact ep_isolated_scanSub M r hM hr rest i
termination_by s => s.length
decreasing_by
  · have := rest.length_drop n
    simp
    omega
  · simp

/-- Helper: a scan either changes nothing or splits at the first match. -/
theorem scanSub_structure (N : RunMatcher) (r : ℕ) :
    ∀ (s : List ℕ), scanSub N r s = s ∨
      ∃ j m, j < s.length ∧
        runMatchLen N (s.drop j) = some (m + 1) ∧
        scanSub N r s = s.take j ++ r :: scanSub N r (s.drop (j + m + 1))
  | [] => Or.inl rfl
  | c :: rest => by
      cases hm : runMatchLen N (c :: rest) with
      | some m' =>
          cases m' with
          | zero => exact absurd (runMatchLen_bounds N _ 0 hm).1 (by omega)
          | succ m =>
              right
              refine ⟨0, m, by simp, hm, ?_⟩
              rw [scanSub_cons_match N r c rest m hm,
                show 0 + m + 1 = m + 1 from by omega,
                List.take_zero, List.drop_succ_cons, List.nil_append]
      | none =>
          rcases scanSub_structure N r rest with heq | ⟨j, m, hj, hmm, heq⟩
          · left
            rw [scanSub_cons_none N r c rest hm, heq]
          · right
            refine ⟨j + 1, m, by simpa using hj, hmm, ?_⟩
            rw [scanSub_cons_none N r c rest hm, heq,
              show j + 1 + m + 1 = (j + m + 1) + 1 from by omega,
              List.take_succ_cons, List.drop_succ_cons, List.cons_append]

/-- Helper (core transfer): if the original string has no `M`-match at a
position that the `N`-scanner keeps, the scanned string has no `M`-match
there either — the single replacement character can neither complete an
`M`-literal (`r` occurs in none of them) nor start a run that the original
could not start. -/
theorem step_transfer (M N : RunMatcher) (r : ℕ)
    (hexcl : ProtosExclusive M)
    (hp_r : ∀ p ∈ M.protos, r ∉ p)
    (hfirst : ∀ t m, runMatchLen N t = some m → M.runPred r = true →
        ∃ c1 cs1, t = c1 :: cs1 ∧ M.runPred c1 = true)
    (c : ℕ) (rest : List ℕ)
    (hno : runMatchLen M (c :: rest) = none) :
    runMatchLen M (c :: scanSub N r rest) = none := by
  rcases scanSub_structure N r rest with heq | ⟨j, m, hj, hmN, heq⟩
  · rw [heq]; exact hno
  · rw [heq]
    set tail := scanSub N r (rest.drop (j + m + 1)) with htail
    cases hres : runMatchLen M (c :: (rest.take j ++ r :: tail)) with
    | none => rfl
    | some m' =>
        exfalso
        obtain ⟨k, hk, d, dl, hdd, hpred, _⟩ := runMatchLen_some_spec M _ m' hres
        obtain ⟨p, hpmem, hppre, hkp⟩ := protoPrefixLen_spec M.protos _ k hk
        have hjlen : j ≤ rest.length := le_of_lt hj
        have hAlen : (c :: rest.take j).length = 1 + j := by
          simp [List.length_take, min_eq_left hjlen]
          omega
        have hA_pre : (c :: rest.take j).IsPrefix (c :: rest) :=
          List.cons_prefix_cons.mpr ⟨rfl, List.take_prefix j rest⟩
        have hfull : c :: (rest.take j ++ r :: tail) =
            (c :: rest.take j) ++ (r :: tail) := rfl
        by_cases hple : p.length ≤ 1 + j
        · have hpA : p.IsPrefix (c :: rest.take j) := by
            apply List.prefix_of_prefix_length_le hppre ?_ ?_
            · rw [hfull]; exact ⟨r :: tail, rfl⟩
            · rw [hAlen]; exact hple
          have hpfull : p.IsPrefix (c :: rest) := hpA.trans hA_pre
          obtain ⟨k0, hk0⟩ := protoPrefixLen_isSome M.protos (c :: rest) p hpmem hpfull
          have hk0p : k0 = p.length := protoPrefixLen_unique M hexcl _ k0 hk0 p hpmem hpfull
          have hrun_orig : ∀ d0 t0, (c :: rest).drop p.length = d0 :: t0 →
              M.runPred d0 = false := by
            intro d0 t0 hcr
            by_cases hpd0 : M.runPred d0 = true
            · have := runMatchLen_isSome M (c :: rest) p.length
                (by rw [← hk0p]; exact hk0) d0 t0 hcr hpd0
              rw [hno] at this
              cases this
            · simpa using hpd0
          have hdropmod : (c :: (rest.take j ++ r :: tail)).drop p.length =
              ((c :: rest.take j).drop p.length) ++ r :: tail := by
            rw [hfull, List.drop_append_eq_append_drop,
              show p.length - (c :: rest.take j).length = 0 from by omega,
              List.drop_zero]
          rw [← hkp] at hdropmod
          rw [hdropmod] at hdd
          cases hAd : (c :: rest.take j).drop k with
          | nil =>
              rw [hAd, List.nil_append] at hdd
              have hdr : d = r := by
                have := congrArg List.head? hdd
                simpa using this.symm
              have hMr : M.runPred r = true := hdr ▸ hpred
              obtain ⟨c1, cs1, hc1, hMc1⟩ := hfirst (rest.drop j) (m + 1) hmN hMr
              have hplen : p.length = 1 + j := by
                have hlen0 := congrArg List.length hAd
                rw [List.length_drop, hAlen] at hlen0
                simp at hlen0
                omega
              have hcr2 : (c :: rest).drop p.length = c1 :: cs1 := by
                rw [hplen, show 1 + j = j + 1 from by omega, List.drop_succ_cons]
                exact hc1
              have := hrun_orig c1 cs1 hcr2
              rw [hMc1] at this
              cases this
          | cons a as =>
              rw [hAd] at hdd
              have had : a = d := by
                have := congrArg List.head? hdd
                simpa using this
              have horig : ∃ os, (c :: rest).drop k = a :: os := by
                have hdp2 := prefix_drop (c :: rest.take j) (c :: rest) hA_pre k
                rw [hAd] at hdp2
                obtain ⟨u, hu⟩ := hdp2
                exact ⟨as ++ u, by rw [← hu]; rfl⟩
              obtain ⟨os, hos⟩ := horig
              have := hrun_orig a os (by rw [← hkp]; exact hos)
              rw [had, hpred] at this
              cases this
        · push_neg at hple
          have hdpre : (p.drop (1 + j)).IsPrefix
              ((c :: (rest.take j ++ r :: tail)).drop (1 + j)) :=
            prefix_drop _ _ hppre _
          have hmdrop : (c :: (rest.take j ++ r :: tail)).drop (1 + j) = r :: tail := by
            rw [hfull, List.drop_append_eq_append_drop,
              show (1 + j) - (c :: rest.take j).length = 0 from by omega,
              List.drop_zero,
              show (c :: rest.take j).drop (1 + j) = [] from by
                apply List.drop_eq_nil_of_le
                rw [hAlen],
              List.nil_append]
          rw [hmdrop] at hdpre
          have hpne2 : p.drop (1 + j) ≠ [] := by
            intro hnil
            have := congrArg List.length hnil
            rw [List.length_drop] at this
            simp at this
            omega
          have hrin : r ∈ p := by
            cases hpd : p.drop (1 + j) with
            | nil => exact absurd hpd hpne2
            | cons b bs =>
                rw [hpd] at hdpre
                have hbr : b = r := (List.cons_prefix_cons.mp hdpre).1
                have : b ∈ p.drop (1 + j) := by rw [hpd]; exact List.mem_cons_self b bs
                rw [← hbr]
                exact List.mem_of_mem_drop this
          exact hp_r p hpmem hrin

/-- Helper: a string headed by the replacement character cannot match when
the replacement occurs in no literal and fails the run predicate whenever an
empty literal is present. -/
theorem runMatchLen_head_none (M : RunMatcher) (r : ℕ)
    (hp_r : ∀ p ∈ M.protos, r ∉ p)
    (hempty : [] ∈ M.protos → M.runPred r = false)
    (t : List ℕ) : runMatchLen M (r :: t) = none := by
  unfold runMatchLen
  cases hp : protoPrefixLen M.protos (r :: t) with
  | none => simp
  | some k =>
      obtain ⟨p, hpmem, hppre, hkp⟩ := protoPrefixLen_spec M.protos (r :: t) k hp
      cases p with
      | cons q qs =>
          exfalso
          have hq : q = r := (List.cons_prefix_cons.mp hppre).1
          exact hp_r (q :: qs) hpmem (hq ▸ List.mem_cons_self q qs)
      | nil =>
          have hk0 : k = 0 := by simpa using hkp
          subst hk0
          have hr : M.runPred r = false := hempty hpmem
          simp [List.takeWhile_cons, hr]

/-- Helper: a match of an empty-literal matcher starts with a run
character. -/
theorem ep_match_head (N : RunMatcher) (hN : N.protos = [[]]) (M : RunMatcher)
    (himp : ∀ c, N.runPred c = true → M.runPred c = true) :
    ∀ t m, runMatchLen N t = some m →
      ∃ c1 cs1, t = c1 :: cs1 ∧ M.runPred c1 = true := by
  intro t m h
  obtain ⟨k, hk, d, l, hd, hpred, _⟩ := runMatchLen_some_spec N t m h
  rw [hN, ep_protoPrefixLen] at hk
  have hk0 : k = 0 := by simpa using hk.symm
  subst hk0
  rw [List.drop_zero] at hd
  exact ⟨d, l, hd, himp d hpred⟩

/-- Helper: scanning with `N` preserves `M`-match-freeness when the
replacement character occurs in no `M`-literal, fails the `M`-run predicate
whenever `M` has an empty literal, and every `N`-match starts with an
`M`-run character whenever the replacement is one. -/
theorem matchFree_scanSub (M N : RunMatcher) (r : ℕ)
    (hexcl : ProtosExclusive M)
    (hp_r : ∀ p ∈ M.protos, r ∉ p)
    (hempty : [] ∈ M.protos → M.runPred r = false)
    (hfirst : ∀ t m, runMatchLen N t = some m → M.runPred r = true →
        ∃ c1 cs1, t = c1 :: cs1 ∧ M.runPred c1 = true) :
    ∀ (s : List ℕ), MatchFree M s → MatchFree M (scanSub N r s)
  | [], _ => by
      intro i
      show runMatchLen M ((scanSub N r []).drop i) = none
      simp [scanSub, scanSubF, runMatchLen_nil]
  | c :: rest, h => by
      cases hm : runMatchLen N (c :: rest) with
      | some m' =>
          cases m' with
          | zero => exact absurd (runMatchLen_bounds N _ 0 hm).1 (by omega)
          | succ n =>
              rw [scanSub_cons_match N r c rest n hm]
              have hrest : MatchFree M (rest.drop n) := by
                intro i
                rw [List.drop_drop]
                exact h (n + i + 1)
              have hT := matchFree_scanSub M N r hexcl hp_r hempty hfirst
                (rest.drop n) hrest
              intro i
              cases i with
              | zero => exact runMatchLen_head_none M r hp_r hempty _
              | succ i => exact hT i
      | none =>
          rw [scanSub_cons_none N r c rest hm]
          have hT := matchFree_scanSub M N r hexcl hp_r hempty hfirst rest
            (fun i => h (i + 1))
          intro i
          cases i with
          | zero => exact step_transfer M N r hexcl hp_r hfirst c rest (h 0)
          | succ i => exact hT i
termination_by s => s.length
decreasing_by
  all_goals simp
  all_goals omega

/-- Helper: scanning `M` out of any string leaves an `M`-match-free string,
provided the replacement character occurs in no `M`-literal and fails the
`M`-run predicate. -/
theorem matchFree_scanSub_self (M : RunMatcher) (r : ℕ)
    (hexcl : ProtosExclusive M)
    (hp_r : ∀ p ∈ M.protos, r ∉ p)
    (hpred_r : M.runPred r = false) :
    ∀ (s : List ℕ), MatchFree M (scanSub M r s)
  | [] => by
      intro i
      show runMatchLen M ((scanSub M r []).drop i) = none
      simp [scanSub, scanSubF, runMatchLen_nil]
  | c :: rest => by
      cases hm : runMatchLen M (c :: rest) with
      | some m' =>
          cases m' with
          | zero => exact absurd (runMatchLen_bounds M _ 0 hm).1 (by omega)
          | succ n =>
              rw [scanSub_cons_match M r c rest n hm]
              have hT := matchFree_scanSub_self M r hexcl hp_r hpred_r (rest.drop n)
              intro i
              cases i with
              | zero =>
                  exact runMatchLen_head_none M r hp_r (fun _ => hpred_r) _
              | succ i => exact hT i
      | none =>
          rw [scanSub_cons_none M r c rest hm]
          have hT := matchFree_scanSub_self M r hexcl hp_r hpred_r rest
          intro i
          cases i with
          | zero =>
              exact step_transfer M M r hexcl hp_r
                (fun t m _ hMr => absurd hMr (by simp [hpred_r])) c rest hm
          | succ i => exact hT i
termination_by s => s.length
decreasing_by
  all_goals simp
  all_goals omega

/-- Helper: a scan of a match-free string is the identity. -/
theorem scanSub_id_of_matchFree (M : RunMatcher) (r : ℕ) :
    ∀ (s : List ℕ), MatchFree M s → scanSub M r s = s
  | [], _ => rfl
  | c :: rest, h => by
      rw [scanSub_cons_none M r c rest (h 0)]
      rw [scanSub_id_of_matchFree M r rest (fun i => h (i + 1))]

/-- Helper: the scanner keeps the head character or replaces it. -/
theorem scanSub_head? (N : RunMatcher) (r : ℕ) :
    ∀ (s : List ℕ), (scanSub N r s).head? = some r ∨ (scanSub N r s).head? = s.head?
  | [] => Or.inr rfl
  | c :: rest => by
      cases hm : runMatchLen N (c :: rest) with
      | some m' =>
          cases m' with
          | zero => exact absurd (runMatchLen_bounds N _ 0 hm).1 (by omega)
          | succ n =>
              left
              rw [scanSub_cons_match N r c rest n hm]
              rfl
      | none =>
          right
          rw [scanSub_cons_none N r c rest hm]
          rfl

/-- Helper: for an empty-literal matcher, no match means the head fails the
run predicate. -/
theorem ep_none_inv (M : RunMatcher) (hM : M.protos = [[]]) (c : ℕ)
    (l : List ℕ) (h : runMatchLen M (c :: l) = none) : M.runPred c = false := by
  by_cases hp : M.runPred c = true
  · rw [ep_some M hM c l hp] at h
    cases h
  · simpa using hp

/-- Helper: isolation with respect to one empty-literal matcher survives a
scan by another whose replacement character fails the first run predicate. -/
theorem isolated_through_scan (M : RunMatcher) (hM : M.protos = [[]]) (rM : ℕ)
    (N : RunMatcher) (rN : ℕ) (hMr : M.runPred rN = false) :
    ∀ (s : List ℕ), IsolatedOk M rM s → IsolatedOk M rM (scanSub N rN s)
  | [], _ => by
      intro i
      left
      show runMatchLen M ((scanSub N rN []).drop i) = none
      simp [scanSub, scanSubF, runMatchLen_nil]
  | c :: rest, h => by
      cases hm : runMatchLen N (c :: rest) with
      | some m' =>
          cases m' with
          | zero => exact absurd (runMatchLen_bounds N _ 0 hm).1 (by omega)
          | succ n =>
              rw [scanSub_cons_match N rN c rest n hm]
              have hT := isolated_through_scan M hM rM N rN hMr (rest.drop n)
                (fun i => by rw [List.drop_drop]; exact h (n + i + 1))
              intro i
              cases i with
              | zero =>
                  left
                  exact ep_none M hM rN _ hMr
              | succ i => exact hT i
      | none =>
          rw [scanSub_cons_none N rN c rest hm]
          have hT := isolated_through_scan M hM rM N rN hMr rest
            (fun i => h (i + 1))
          intro i
          cases i with
          | succ i => exact hT i
          | zero =>
              rcases h 0 with hnone | ⟨hsome, hhead⟩
              · left
                rw [List.drop_zero] at hnone
                have hc : M.runPred c = false := ep_none_inv M hM c rest hnone
                exact ep_none M hM c _ hc
              · right
                rw [List.drop_zero] at hsome hhead
                have hc : c = rM := by simpa using hhead
                have hpc : M.runPred c = true := by
                  by_cases hp : M.runPred c = true
                  · exact hp
                  · rw [ep_none M hM c rest (by simpa using hp)] at hsome
                    cases hsome
                have htw : rest.takeWhile M.runPred = [] := by
                  rw [ep_some M hM c rest hpc] at hsome
                  simp only [List.takeWhile_cons, hpc, if_true, List.length_cons,
                    Option.some.injEq] at hsome
                  exact List.eq_nil_of_length_eq_zero (by omega)
                have hrest_head : ∀ d t, rest = d :: t → M.runPred d = false := by
                  intro d t hdt
                  by_cases hp : M.runPred d = true
                  · rw [hdt, List.takeWhile_cons, hp] at htw
                    simp at htw
                  · simpa using hp
                have htwT : (scanSub N rN rest).takeWhile M.runPred = [] := by
                  cases hTc : scanSub N rN rest with
                  | nil => rfl
                  | cons e T' =>
                      have hpe : M.runPred e = false := by
                        rcases scanSub_head? N rN rest with hh | hh
                        · rw [hTc] at hh
                          have : e = rN := by simpa using hh
                          rw [this]
                          exact hMr
                        · rw [hTc] at hh
                          cases rest with
                          | nil => cases hh
                          | cons d t =>
                              have hed : e = d := by simpa using hh
                              rw [hed]
                              exact hrest_head d t rfl
                      rw [List.takeWhile_cons, hpe]
                      simp
                constructor
                · show runMatchLen M (c :: scanSub N rN rest) = some 1
                  rw [ep_some M hM c _ hpc]
                  simp [List.takeWhile_cons, hpc, htwT]
                · show (c :: scanSub N rN rest).head? = some rM
                  rw [List.head?_cons, hc]
termination_by s => s.length
decreasing_by
  all_goals simp
  all_goals omega

/-- Helper: scanner output characters come from the input or are the
replacement character. -/
theorem scanSub_mem (N : RunMatcher) (r : ℕ) :
    ∀ (s : List ℕ) (x : ℕ), x ∈ scanSub N r s → x ∈ s ∨ x = r
  | [], x => by
      intro hx
      rw [show scanSub N r [] = [] from rfl] at hx
      cases hx
  | c :: rest, x => by
      cases hm : runMatchLen N (c :: rest) with
      | some m' =>
          cases m' with
          | zero => exact fun _ => absurd (runMatchLen_bounds N _ 0 hm).1 (by omega)
          | succ n =>
              rw [scanSub_cons_match N r c rest n hm]
              intro hx
              rcases List.mem_cons.mp hx with hx | hx
              · right
                exact hx
              · rcases scanSub_mem N r (rest.drop n) x hx with hx | hx
                · left
                  exact List.mem_cons_of_mem c (List.mem_of_mem_drop hx)
                · right
                  exact hx
      | none =>
          rw [scanSub_cons_none N r c rest hm]
          intro hx
          rcases List.mem_cons.mp hx with hx | hx
          · left
            rw [hx]
            exact List.mem_cons_self c rest
          · rcases scanSub_mem N r rest x hx with hx | hx
            · left
              exact List.mem_cons_of_mem c hx
            · right
              exact hx
termination_by s => s.length
decreasing_by
  all_goals simp
  all_goals omega

/-- Helper: lowercasing a character is idempotent. -/
theorem nLower_fix (c : ℕ) : nLower (nLower c) = nLower c := by
  unfold nLower
  split_ifs <;> omega

/-- Helper: `dropWhile` output characters come from the input. -/
theorem dropWhile_subset_n (p : ℕ → Bool) :
    ∀ (l : List ℕ) (x : ℕ), x ∈ l.dropWhile p → x ∈ l := by
  intro l
  induction l with
  | nil => intro x h; exact h
  | cons a t ih =>
      intro x h
      by_cases hp : p a = true
      · rw [List.dropWhile_cons_of_pos hp] at h
        exact List.mem_cons_of_mem a (ih x h)
      · rw [List.dropWhile_cons_of_neg (by simpa using hp)] at h
        exact h

/-- Helper: `dropWhile` is a suffix of the input. -/
theorem dropWhile_isSuffix (p : ℕ → Bool) :
    ∀ (l : List ℕ), (l.dropWhile p).IsSuffix l := by
  intro l
  induction l with
  | nil => exact ⟨[], rfl⟩
  | cons a t ih =>
      by_cases hp : p a = true
      · rw [List.dropWhile_cons_of_pos hp]
        obtain ⟨u, hu⟩ := ih
        exact ⟨a :: u, by rw [List.cons_append, hu]⟩
      · rw [List.dropWhile_cons_of_neg (by simpa using hp)]

/-- Helper: stripped-string characters come from the string. -/
theorem nStrip_subset (s : List ℕ) (x : ℕ) (h : x ∈ nStrip s) : x ∈ s := by
  unfold nStrip at h
  rw [List.mem_reverse] at h
  have h2 : x ∈ (s.dropWhile nIsSpace).reverse := dropWhile_subset_n nIsSpace _ x h
  rw [List.mem_reverse] at h2
  exact dropWhile_subset_n nIsSpace s x h2

/-- Helper: the stripped string is a prefix of the left-stripped string. -/
theorem nStrip_prefix_dropWhile (s : List ℕ) :
    (nStrip s).IsPrefix (s.dropWhile nIsSpace) := by
  unfold nStrip
  obtain ⟨t, ht⟩ := dropWhile_isSuffix nIsSpace (s.dropWhile nIsSpace).reverse
  exact ⟨t.reverse, by rw [← List.reverse_append, ht, List.reverse_reverse]⟩

/-- Helper: the stripped string is a prefix of a suffix of the string. -/
theorem nStrip_prefix_drop (s : List ℕ) :
    ∃ i, (nStrip s).IsPrefix (s.drop i) :=
  ⟨(s.takeWhile nIsSpace).length, by
    rw [drop_takeWhile_length]
    exact nStrip_prefix_dropWhile s⟩

/-- Helper: the head of a stripped string is not whitespace. -/
theorem nStrip_head (s : List ℕ) (c : ℕ) (h : (nStrip s).head? = some c) :
    nIsSpace c = false := by
  have hne : nStrip s ≠ [] := by
    intro h0
    rw [h0] at h
    cases h
  have hh := head?_of_prefix (nStrip s) (s.dropWhile nIsSpace)
    (nStrip_prefix_dropWhile s) hne
  rw [h] at hh
  cases hd : s.dropWhile nIsSpace with
  | nil =>
      rw [hd] at hh
      cases hh
  | cons d t =>
      rw [hd] at hh
      have hcd : c = d := by simpa using hh
      rw [hcd]
      exact head_dropWhile_not nIsSpace s d t hd

/-- Helper: stripping is the identity when both ends are not whitespace. -/
theorem nStrip_id (s : List ℕ)
    (hh : ∀ c, s.head? = some c → nIsSpace c = false)
    (hl : ∀ c, s.getLast? = some c → nIsSpace c = false) :
    nStrip s = s := by
  have h1 : s.dropWhile nIsSpace = s := by
    cases s with
    | nil => rfl
    | cons a t =>
        rw [List.dropWhile_cons_of_neg]
        simp [hh a rfl]
  unfold nStrip
  rw [h1]
  have h2 : s.reverse.dropWhile nIsSpace = s.reverse := by
    cases hr : s.reverse with
    | nil => rfl
    | cons a t =>
        rw [List.dropWhile_cons_of_neg]
        have hla : s.getLast? = some a := by
          rw [← List.head?_reverse, hr]
          rfl
        simp [hl a hla]
  rw [h2, List.reverse_reverse]

/-- Helper: a trailing-space test failing means no last whitespace char. -/
theorem endsInSpace_false (u : List ℕ) (h : endsInSpace u = false) :
    ∀ c, u.getLast? = some c → nIsSpace c = false := by
  intro c hc
  unfold endsInSpace at h
  rw [hc] at h
  exact h

/-- Helper: match-freeness survives stripping. -/
theorem matchFree_nStrip (M : RunMatcher) (hexcl : ProtosExclusive M)
    (s : List ℕ) (h : MatchFree M s) : MatchFree M (nStrip s) := by
  obtain ⟨i, hpre⟩ := nStrip_prefix_drop s
  exact matchFree_of_prefix M hexcl _ _ hpre (matchFree_drop M s h i)

/-- Helper: isolation survives stripping (empty-literal matchers). -/
theorem isolated_nStrip (M : RunMatcher) (hM : M.protos = [[]]) (r : ℕ)
    (s : List ℕ) (h : IsolatedOk M r s) : IsolatedOk M r (nStrip s) := by
  obtain ⟨i, hpre⟩ := nStrip_prefix_drop s
  exact isolated_of_prefix M hM r _ _ hpre (isolated_drop M r s h i)

/-- Helper: a single-literal matcher has exclusive literals. -/
theorem protosExclusive_single (M : RunMatcher) (p : List ℕ)
    (hM : M.protos = [p]) : ProtosExclusive M := by
  intro p₁ h₁ p₂ h₂ _
  rw [hM] at h₁ h₂
  simp at h₁ h₂
  rw [h₁, h₂]

/-- Helper: the two URL literals are not prefixes of one another. -/
theorem protosExclusive_url : ProtosExclusive urlM := by
  intro p₁ h₁ p₂ h₂ hpre
  simp only [urlM, List.mem_cons, List.not_mem_nil, or_false] at h₁ h₂
  rcases h₁ with h₁ | h₁ <;> rcases h₂ with h₂ | h₂ <;> subst h₁ <;> subst h₂ <;>
    first
      | rfl
      | (exfalso
         obtain ⟨u, hu⟩ := hpre
         simp at hu)

/-- Helper: a digit-run character is a URL-run character (not whitespace). -/
theorem dig_imp_url (c : ℕ) (h : digM.runPred c = true) : urlM.runPred c = true := by
  have h2 : 48 ≤ c ∧ c ≤ 57 := by simpa [digM, nIsDigit] using h
  show (!nIsSpace c) = true
  simp [nIsSpace]
  omega

/-- Helper: a digit-run character is a word character. -/
theorem dig_imp_word (c : ℕ) (h : digM.runPred c = true) : nIsWord c = true := by
  have h2 : 48 ≤ c ∧ c ≤ 57 := by simpa [digM, nIsDigit] using h
  simp [nIsWord, nIsDigit]
  omega

/-- Helper: the URL scanner output stays URL-match-free down the pipeline. -/
theorem core_matchFree_url (t : List ℕ) : MatchFree urlM (normCore t) := by
  have hexcl : ProtosExclusive urlM := protosExclusive_url
  unfold normCore prePipe
  have h1 := matchFree_scanSub_self urlM 32 hexcl (by decide) (by decide)
    ((nStrip t).map nLower)
  have h2 := matchFree_scanSub urlM atM 32 hexcl (by decide) (by decide)
    (fun _ _ _ hMr => absurd hMr (by decide)) _ h1
  have h3 := matchFree_scanSub urlM hashM 32 hexcl (by decide) (by decide)
    (fun _ _ _ hMr => absurd hMr (by decide)) _ h2
  have h4 := matchFree_scanSub urlM digM 48 hexcl (by decide) (by decide)
    (fun t2 m2 hm2 _ => ep_match_head digM rfl urlM dig_imp_url t2 m2 hm2) _ h3
  have h5 := matchFree_scanSub urlM wsM 32 hexcl (by decide) (by decide)
    (fun _ _ _ hMr => absurd hMr (by decide)) _ h4
  exact matchFree_nStrip urlM hexcl _ h5

/-- Helper: the handle scanner output stays handle-match-free. -/
theorem core_matchFree_at (t : List ℕ) : MatchFree atM (normCore t) := by
  have hexcl : ProtosExclusive atM := protosExclusive_single atM [64] rfl
  unfold normCore prePipe
  have h2 := matchFree_scanSub_self atM 32 hexcl (by decide) (by decide)
    (scanSub urlM 32 ((nStrip t).map nLower))
  have h3 := matchFree_scanSub atM hashM 32 hexcl (by decide) (by decide)
    (fun _ _ _ hMr => absurd hMr (by decide)) _ h2
  have h4 := matchFree_scanSub atM digM 48 hexcl (by decide) (by decide)
    (fun t2 m2 hm2 _ => ep_match_head digM rfl atM dig_imp_word t2 m2 hm2) _ h3
  have h5 := matchFree_scanSub atM wsM 32 hexcl (by decide) (by decide)
    (fun _ _ _ hMr => absurd hMr (by decide)) _ h4
  exact matchFree_nStrip atM hexcl _ h5

/-- Helper: the hashtag scanner output stays hashtag-match-free. -/
theorem core_matchFree_hash (t : List ℕ) : MatchFree hashM (normCore t) := by
  have hexcl : ProtosExclusive hashM := protosExclusive_single hashM [35] rfl
  unfold normCore prePipe
  have h3 := matchFree_scanSub_self hashM 32 hexcl (by decide) (by decide)
    (scanSub atM 32 (scanSub urlM 32 ((nStrip t).map nLower)))
  have h4 := matchFree_scanSub hashM digM 48 hexcl (by decide) (by decide)
    (fun t2 m2 hm2 _ => ep_match_head digM rfl hashM dig_imp_word t2 m2 hm2) _ h3
  have h5 := matchFree_scanSub hashM wsM 32 hexcl (by decide) (by decide)
    (fun _ _ _ hMr => absurd hMr (by decide)) _ h4
  exact matchFree_nStrip hashM hexcl _ h5

/-- Helper: digit runs in the pipeline output are isolated zeros. -/
theorem core_isolated_dig (t : List ℕ) : IsolatedOk digM 48 (normCore t) := by
  unfold normCore prePipe
  have h4 := ep_isolated_scanSub digM 48 rfl (by decide)
    (scanSub hashM 32 (scanSub atM 32 (scanSub urlM 32 ((nStrip t).map nLower))))
  have h5 := isolated_through_scan digM rfl 48 wsM 32 (by decide) _ h4
  exact isolated_nStrip digM rfl 48 _ h5

/-- Helper: whitespace runs in the pipeline output are isolated blanks. -/
theorem core_isolated_ws (t : List ℕ) : IsolatedOk wsM 32 (normCore t) := by
  unfold normCore
  exact isolated_nStrip wsM rfl 32 _ (ep_isolated_scanSub wsM 32 rfl (by decide) _)

/-- Helper: every pipeline-output character is lowercase-fixed. -/
theorem core_lower (t : List ℕ) : ∀ c ∈ normCore t, nLower c = c := by
  intro c hc
  unfold normCore prePipe at hc
  have h5 := nStrip_subset _ c hc
  rcases scanSub_mem wsM 32 _ c h5 with h4 | h32
  · rcases scanSub_mem digM 48 _ c h4 with h3 | h48
    · rcases scanSub_mem hashM 32 _ c h3 with h2 | h32
      · rcases scanSub_mem atM 32 _ c h2 with h1 | h32
        · rcases scanSub_mem urlM 32 _ c h1 with h0 | h32
          · obtain ⟨d, _, rfl⟩ := List.mem_map.mp h0
            exact nLower_fix d
          · subst h32
            decide
        · subst h32
          decide
      · subst h32
        decide
    · subst h48
      decide
  · subst h32
    decide

/-- Helper: the pipeline output starts with a non-space character. -/
theorem core_head (t : List ℕ) (c : ℕ) (h : (normCore t).head? = some c) :
    nIsSpace c = false := by
  unfold normCore at h
  exact nStrip_head _ c h

/-- Helper: `normalizeTextForFingerprint` in terms of its pre-truncation
value. -/
theorem normalize_eq (t : List ℕ) :
    normalizeTextForFingerprint t =
      if t.isEmpty then []
      else if 800 < (normCore t).length then (normCore t).take 800
      else normCore t := rfl

/-- Helper: the normalized text is empty or a prefix of the pre-truncation
value. -/
theorem normalize_cases (t : List ℕ) :
    normalizeTextForFingerprint t = [] ∨
      ∃ k, normalizeTextForFingerprint t = (normCore t).take k := by
  rw [normalize_eq]
  cases hte : t.isEmpty with
  | true => left; simp
  | false =>
      right
      simp only [Bool.false_eq_true, if_false]
      split_ifs with h8
      · exact ⟨800, rfl⟩
      · exact ⟨(normCore t).length, (List.take_length _).symm⟩

/-- Helper: the normalized text never exceeds 800 characters. -/
theorem norm_len (t : List ℕ) : (normalizeTextForFingerprint t).length ≤ 800 := by
  rw [normalize_eq]
  cases hte : t.isEmpty with
  | true => simp
  | false =>
      simp only [Bool.false_eq_true, if_false]
      split_ifs with h8
      · simp [List.length_take]
      · omega

/-- Helper: match-freeness descends from the pre-truncation value to the
normalized text. -/
theorem norm_matchFree (M : RunMatcher) (hexcl : ProtosExclusive M) (t : List ℕ)
    (hcore : MatchFree M (normCore t)) :
    MatchFree M (normalizeTextForFingerprint t) := by
  rcases normalize_cases t with h | ⟨k, h⟩
  · rw [h]
    intro i
    simp [runMatchLen_nil]
  · rw [h]
    exact matchFree_of_prefix M hexcl _ _ (List.take_prefix k _) hcore

/-- Helper: isolation descends from the pre-truncation value to the
normalized text. -/
theorem norm_isolated (M : RunMatcher) (hM : M.protos = [[]]) (r : ℕ) (t : List ℕ)
    (hcore : IsolatedOk M r (normCore t)) :
    IsolatedOk M r (normalizeTextForFingerprint t) := by
  rcases normalize_cases t with h | ⟨k, h⟩
  · rw [h]
    intro i
    left
    simp [runMatchLen_nil]
  · rw [h]
    exact isolated_of_prefix M hM r _ _ (List.take_prefix k _) hcore

/-- Helper: normalized-text characters are lowercase-fixed. -/
theorem norm_lower (t : List ℕ) :
    ∀ c ∈ normalizeTextForFingerprint t, nLower c = c := by
  intro c hc
  rcases normalize_cases t with h | ⟨k, h⟩
  · rw [h] at hc
    cases hc
  · rw [h] at hc
    exact core_lower t c (List.take_subset k _ hc)

/-- Helper: the normalized text starts with a non-space character. -/
theorem norm_head (t : List ℕ) (c : ℕ)
    (h : (normalizeTextForFingerprint t).head? = some c) : nIsSpace c = false := by
  rcases normalize_cases t with h0 | ⟨k, h0⟩
  · rw [h0] at h
    cases h
  · rw [h0] at h
    have hne : (normCore t).take k ≠ [] := by
      intro hx
      rw [hx] at h
      cases h
    have hh := head?_of_prefix _ _ (List.take_prefix k (normCore t)) hne
    rw [h] at hh
    exact core_head t c hh.symm

/-- Helper: a map of the lowercase function over fixed characters is the
identity. -/
theorem map_nLower_id (s : List ℕ) (h : ∀ c ∈ s, nLower c = c) :
    s.map nLower = s :=
  (List.map_congr_left h).trans (List.map_id s)

/-- Helper: normalizing an already-normalized text returns it unchanged,
provided it does not end in whitespace. -/
theorem normalize_norm_id (t : List ℕ)
    (h : endsInSpace (normalizeTextForFingerprint t) = false) :
    normalizeTextForFingerprint (normalizeTextForFingerprint t) =
      normalizeTextForFingerprint t := by
  have hstrip : nStrip (normalizeTextForFingerprint t) =
      normalizeTextForFingerprint t :=
    nStrip_id _ (norm_head t) (endsInSpace_false _ h)
  have hmap := map_nLower_id _ (norm_lower t)
  have hurl := scanSub_id_of_matchFree urlM 32 _
    (norm_matchFree urlM protosExclusive_url t (core_matchFree_url t))
  have hat := scanSub_id_of_matchFree atM 32 _
    (norm_matchFree atM (protosExclusive_single atM [64] rfl) t
      (core_matchFree_at t))
  have hhash := scanSub_id_of_matchFree hashM 32 _
    (norm_matchFree hashM (protosExclusive_single hashM [35] rfl) t
      (core_matchFree_hash t))
  have hdig := scanSub_id_of_isolated digM 48 _
    (norm_isolated digM rfl 48 t (core_isolated_dig t))
  have hws := scanSub_id_of_isolated wsM 32 _
    (norm_isolated wsM rfl 32 t (core_isolated_ws t))
  have hcore : normCore (normalizeTextForFingerprint t) =
      normalizeTextForFingerprint t := by
    unfold normCore prePipe
    rw [hstrip, hmap, hurl, hat, hhash, hdig, hws, hstrip]
  have hlen := norm_len t
  rw [normalize_eq (normalizeTextForFingerprint t)]
  cases hue : (normalizeTextForFingerprint t).isEmpty with
  | true =>
      have hnil : normalizeTextForFingerprint t = [] := by
        cases hn : normalizeTextForFingerprint t with
        | nil => rfl
        | cons a l =>
            rw [hn] at hue
            simp [List.isEmpty] at hue
      simp only [if_true]
      exact hnil.symm
  | false =>
      simp only [Bool.false_eq_true, if_false]
      rw [hcore, if_neg (by omega)]

set_option maxRecDepth 4000 in
/-- **C5** (amended): `normalize_text_for_fingerprint` is idempotent on every
text whose normalized form does not end in a whitespace character (the only
exception arises when the 800-character truncation cuts immediately after a
space), and for those texts `topic_fingerprint` of the normalized text equals
`topic_fingerprint` of the original text, for every hash function. -/
theorem c5_normalize_idempotent_no_trailing_space (t : List ℕ)
    (h : endsInSpace (normalizeTextForFingerprint t) = false) :
    normalizeTextForFingerprint (normalizeTextForFingerprint t) =
      normalizeTextForFingerprint t ∧
    ∀ hash : List ℕ → List ℕ,
      topicFingerprint hash (normalizeTextForFingerprint t) =
        topicFingerprint hash t := by
  refine ⟨normalize_norm_id t h, fun hash => ?_⟩
  unfold topicFingerprint
  rw [normalize_norm_id t h]

set_option maxRecDepth 4000 in
/-- Witness for the amended C5 theorem at a concrete one-character text. -/
theorem c5_normalize_idempotent_no_trailing_space_witness :
    endsInSpace (normalizeTextForFingerprint [97]) = false ∧
    normalizeTextForFingerprint (normalizeTextForFingerprint [97]) =
      normalizeTextForFingerprint [97] :=
  ⟨by decide, (c5_normalize_idempotent_no_trailing_space [97] (by decide)).1⟩

end TgPostService
